import Mathlib

/-!
Verification of the coil-cutting ILP optimizer (`optimizador_ilp_v2.py`).

The engine's data and logic are shallowly embedded below.  Python floats are
modelled as exact rationals (`ℚ`); the display rounding `round(x, 2)` applied
while building the output table is not modelled.  Python dict literals are
modelled as insertion-ordered association lists with overwrite-on-duplicate-key
semantics (`dictOfList`).  The decision variables of the PuLP model are
modelled as functions from the candidate identifier to `ℚ`, and the model
itself as a feasibility predicate (`Factible`) collecting every constraint
that `_crear_modelo_ilp` posts, including the variable bounds and binary
restrictions.
-/

namespace OptimizadorBobinas

/-! Definitions: the embedded data model, pattern generator, ILP constraint
system, extractor and report formatter, followed by the concrete instances
used by witnesses and counterexamples. -/

/-- Stock roll ("desarrollo") record as produced by `_cargar_datos`: the Python
code assigns `id = f"des_{idx}"` from the row index; we keep the index itself
as the identifier (an injective renaming). -/
structure Desarrollo where
  id : ℕ
  ancho : ℚ
  espesor : ℚ
  aleacion : String
  estado : String
  kg_disponibles : ℚ
deriving DecidableEq

/-- Order ("pedido") record as produced by `_cargar_datos`; `id` is the raw
`PEDIDO` cell (a string, possibly duplicated across rows). -/
structure Pedido where
  id : String
  ancho : ℚ
  kg_solicitados : ℚ
  aleacion : String
  estado : String
  espesor : ℚ
  ml_minimos : ℚ
deriving DecidableEq

/-- Configuration parameters of `OptimizadorILP.__init__` (the solver time
budget `tiempo_max_segundos` and the `debug` flag do not affect the computed
solution and are omitted). -/
structure Params where
  desperdicio_bordes_minimo : ℚ
  desperdicio_bordes_maximo : ℚ
  kg_max_bobina : ℚ
  kg_min_bobina : ℚ
  max_cortes_por_pedido : ℕ
  margen_cobertura : ℚ
  margen_exceso : ℚ
  margen_tolerancia_ml_pct : ℚ
  ml_minimo_resto : ℚ
  max_pedidos_por_configuracion : ℕ
  factor_penalizacion_desperdicio : ℚ

/-- Inserting one key into a Python dict: overwrite in place if the key is
present, otherwise append at the end. -/
def dictInsert (m : List (String × ℕ)) (k : String) (v : ℕ) : List (String × ℕ) :=
  if m.any (fun e => e.1 = k) then
    m.map (fun e => if e.1 = k then (k, v) else e)
  else m ++ [(k, v)]

/-- A Python dict literal `{k1: v1, ..., kn: vn}`: sequential insertion. -/
def dictOfList (l : List (String × ℕ)) : List (String × ℕ) :=
  l.foldl (fun m kv => dictInsert m kv.1 kv.2) []

/-- A cutting configuration as built by `_generar_configuraciones_corte`:
the dict `cortes` (order id ↦ number of cuts) and the used width. -/
structure Configuracion where
  cortes : List (String × ℕ)
  ancho_usado : ℚ
deriving DecidableEq

/-- A selection: the orders picked by one enumeration step of the generator,
with the cut count chosen for each, in loop order. -/
abbrev Seleccion := List (Pedido × ℕ)

/-- Total width used by a selection: `Σ count_i × order_width_i`. -/
def selSum (sel : Seleccion) : ℚ :=
  (sel.map (fun pn => (pn.2 : ℚ) * pn.1.ancho)).sum

/-- The configuration a selection produces: the dict literal over
`(order id, count)` pairs, plus the used width. -/
def mkConfiguracion (sel : Seleccion) : Configuracion :=
  ⟨dictOfList (sel.map (fun pn => (pn.1.id, pn.2))), selSum sel⟩

/-- All k-element combinations of a list, in the order the Python nested
loops `for i ...: for j in range(i+1, ...)` visit them. -/
def combinations : ℕ → List α → List (List α)
  | 0, _ => [[]]
  | _ + 1, [] => []
  | k + 1, x :: xs => ((combinations k xs).map (fun c => x :: c)) ++ combinations (k + 1) xs

/-- All tuples of cut counts, position `i` ranging over `1..caps[i]`, in the
order of the Python nested `for n1 ...: for n2 ...:` loops. -/
def countTuples : List ℕ → List (List ℕ)
  | [] => [[]]
  | c :: cs => (List.range' 1 c).flatMap (fun n => (countTuples cs).map (fun t => n :: t))

/-- Selections enumerated by a k-order branch: every k-combination of the
compatible orders paired with every admissible count tuple. -/
def selsOf (k : ℕ) (caps : List ℕ) (ps : List Pedido) : List Seleccion :=
  (combinations k ps).flatMap (fun combo => (countTuples caps).map (fun ns => combo.zip ns))

/-- Emission step shared by all branches: a selection passing the branch's
acceptance test contributes one configuration, otherwise nothing (the nested
`if` checks of the source are folded into one conjunction `cond`). -/
def emitConfigs (cond : Seleccion → Prop) [DecidablePred cond] (sels : List Seleccion) :
    List Configuracion :=
  sels.flatMap (fun sel => if cond sel then [mkConfiguracion sel] else [])

/-- Acceptance test of the 1-order branch: only the edge-waste window is
checked (the count range already guarantees the width fits). -/
def condBranch1 (P : Params) (d : Desarrollo) (sel : Seleccion) : Prop :=
  P.desperdicio_bordes_minimo ≤ d.ancho - selSum sel ∧
    d.ancho - selSum sel ≤ P.desperdicio_bordes_maximo

/-- Acceptance test of the 2..6-order branches: used width must fit and the
edge waste must lie in the window. -/
def condBranchMulti (P : Params) (d : Desarrollo) (sel : Seleccion) : Prop :=
  selSum sel ≤ d.ancho ∧
    (P.desperdicio_bordes_minimo ≤ d.ancho - selSum sel ∧
      d.ancho - selSum sel ≤ P.desperdicio_bordes_maximo)

instance (P : Params) (d : Desarrollo) : DecidablePred (condBranch1 P d) := fun _ =>
  inferInstanceAs (Decidable (_ ∧ _))

instance (P : Params) (d : Desarrollo) : DecidablePred (condBranchMulti P d) := fun _ =>
  inferInstanceAs (Decidable (_ ∧ _))

/-- Selections of the 1-order branch: for each order, cut counts from 1 up to
`min(int(stock_width // order_width), max_cortes_por_pedido)`. -/
def selsBranch1 (P : Params) (d : Desarrollo) (ps : List Pedido) : List Seleccion :=
  ps.flatMap (fun p =>
    (List.range' 1 (min ((⌊d.ancho / p.ancho⌋).toNat + 1) (P.max_cortes_por_pedido + 1) - 1)).map
      (fun n => [(p, n)]))

/-- Count-range sizes of the k-order branches, mirroring the
`range(1, min(cap, self.max_cortes_por_pedido + 1))` loop bounds. -/
def capsOf (P : Params) : ℕ → List ℕ
  | 2 => [P.max_cortes_por_pedido, P.max_cortes_por_pedido]
  | 3 => [min 8 (P.max_cortes_por_pedido + 1) - 1, min 6 (P.max_cortes_por_pedido + 1) - 1,
          min 6 (P.max_cortes_por_pedido + 1) - 1]
  | 4 => [min 5 (P.max_cortes_por_pedido + 1) - 1, min 4 (P.max_cortes_por_pedido + 1) - 1,
          min 4 (P.max_cortes_por_pedido + 1) - 1, min 4 (P.max_cortes_por_pedido + 1) - 1]
  | 5 => [min 4 (P.max_cortes_por_pedido + 1) - 1, min 3 (P.max_cortes_por_pedido + 1) - 1,
          min 3 (P.max_cortes_por_pedido + 1) - 1, min 3 (P.max_cortes_por_pedido + 1) - 1,
          min 3 (P.max_cortes_por_pedido + 1) - 1]
  | 6 => [min 3 (P.max_cortes_por_pedido + 1) - 1, min 2 (P.max_cortes_por_pedido + 1) - 1,
          min 2 (P.max_cortes_por_pedido + 1) - 1, min 2 (P.max_cortes_por_pedido + 1) - 1,
          min 2 (P.max_cortes_por_pedido + 1) - 1, min 2 (P.max_cortes_por_pedido + 1) - 1]
  | _ => []

/-- The full `_generar_configuraciones_corte`: branches for 1..6 distinct
orders, the 4- and 5-order branches gated on `max_pedidos_por_configuracion`,
the 6-order branch unconditional (exactly as in the source). -/
def generarConfiguracionesCorte (P : Params) (d : Desarrollo) (ps : List Pedido) :
    List Configuracion :=
  emitConfigs (condBranch1 P d) (selsBranch1 P d ps) ++
  emitConfigs (condBranchMulti P d) (selsOf 2 (capsOf P 2) ps) ++
  emitConfigs (condBranchMulti P d) (selsOf 3 (capsOf P 3) ps) ++
  (if 4 ≤ P.max_pedidos_por_configuracion then
    emitConfigs (condBranchMulti P d) (selsOf 4 (capsOf P 4) ps) else []) ++
  (if 5 ≤ P.max_pedidos_por_configuracion then
    emitConfigs (condBranchMulti P d) (selsOf 5 (capsOf P 5) ps) else []) ++
  emitConfigs (condBranchMulti P d) (selsOf 6 (capsOf P 6) ps)

/-- Compatibility filter of `_generar_bobinas_candidatas`: equal thickness,
alloy and temper, and the order's width must fit the stock width. -/
def pedidosCompatibles (d : Desarrollo) (ps : List Pedido) : List Pedido :=
  ps.filter (fun p =>
    decide (p.espesor = d.espesor ∧ p.aleacion = d.aleacion ∧ p.estado = d.estado ∧
      p.ancho ≤ d.ancho))

/-- A candidate coil ("bobina candidata").  The Python dict also repeats the
configuration's `ancho_usado` at top level; we read it from `configuracion`. -/
structure Candidata where
  id : ℕ
  desarrollo : Desarrollo
  configuracion : Configuracion
  desperdicio : ℚ
deriving DecidableEq

/-- The full `_generar_bobinas_candidatas`: for every stock roll, generate
configurations over its compatible orders and number the candidates with the
running counter `id_bobina` (starting at 1).  A stock roll without compatible
orders contributes nothing (the source's `continue`). -/
def generarBobinasCandidatas (P : Params) (ds : List Desarrollo) (ps : List Pedido) :
    List Candidata :=
  ((ds.flatMap (fun d =>
      (generarConfiguracionesCorte P d (pedidosCompatibles d ps)).map (fun cfg => (d, cfg)))).enum).map
    (fun ic => ⟨ic.1 + 1, ic.2.1, ic.2.2, ic.2.1.ancho - ic.2.2.ancho_usado⟩)

/-- Whether a candidate's configuration contains an order
(`pedido['id'] in cand['configuracion']['cortes']`). -/
def contiene (c : Candidata) (p : Pedido) : Prop :=
  (c.configuracion.cortes.lookup p.id).isSome = true

instance (c : Candidata) (p : Pedido) : Decidable (contiene c p) :=
  inferInstanceAs (Decidable (_ = _))

/-- `_calcular_kg_asignado`: kilograms the model attributes to order `p` on
candidate `c` when its linear-meter variable takes the value `mlv`
(`ml × 2.73 × espesor × ancho_corte / 1000`, and `0` when the order is not in
the configuration). -/
def kgAsignado (c : Candidata) (p : Pedido) (mlv : ℚ) : ℚ :=
  match c.configuracion.cortes.lookup p.id with
  | none => 0
  | some n => mlv * (2.73 * c.desarrollo.espesor * (((n : ℚ) * p.ancho) / 1000))

/-- `_calcular_kg_bobina`: gross kilograms of a candidate at `mlv` linear
meters, computed from the full development width. -/
def kgBobina (c : Candidata) (mlv : ℚ) : ℚ :=
  mlv * (2.73 * c.desarrollo.espesor * (c.desarrollo.ancho / 1000))

/-- The model's coverage sum for an order: `_calcular_kg_asignado` summed over
the candidates whose configuration contains the order. -/
def kgAsignadosPedido (cands : List Candidata) (p : Pedido) (ml : ℕ → ℚ) : ℚ :=
  ((cands.filter (fun c => decide (contiene c p))).map (fun c => kgAsignado c p (ml c.id))).sum

/-- Linear meters available in a development
(`kg_disponibles / (2.73 × espesor × (ancho/1000))`). -/
def mlDisponibles (d : Desarrollo) : ℚ :=
  d.kg_disponibles / (2.73 * d.espesor * (d.ancho / 1000))

/-- Candidates drawing on a given development (matched by id, as in the
source). -/
def candidatasDe (cands : List Candidata) (d : Desarrollo) : List Candidata :=
  cands.filter (fun c => decide (c.desarrollo.id = d.id))

/-- Aggregate linear meters drawn from a development. -/
def mlUsados (cands : List Candidata) (d : Desarrollo) (ml : ℕ → ℚ) : ℚ :=
  ((candidatasDe cands d).map (fun c => ml c.id)).sum

/-- Constraint block 7 of `_crear_modelo_ilp` (minimum leftover per
development), posted only when `ml_minimo_resto > 0`: an existential over the
binary `deja_resto` variables. -/
def RestoDesarrollos (P : Params) (ds : List Desarrollo) (cands : List Candidata)
    (ml : ℕ → ℚ) : Prop :=
  ∃ z : ℕ → ℚ, ∀ d ∈ ds, (z d.id = 0 ∨ z d.id = 1) ∧
    (candidatasDe cands d ≠ [] →
      mlUsados cands d ml ≤ mlDisponibles d ∧
      P.ml_minimo_resto * z d.id ≤ mlDisponibles d - mlUsados cands d ml ∧
      mlDisponibles d - 20000 * z d.id ≤ mlUsados cands d ml)

/-- Constraint block 8 of `_crear_modelo_ilp` (minimum leftover per individual
candidate coil), posted only when `ml_minimo_resto > 0`. -/
def RestoBobinas (P : Params) (cands : List Candidata) (ml : ℕ → ℚ) : Prop :=
  ∃ zb : ℕ → ℚ, ∀ c ∈ cands, (zb c.id = 0 ∨ zb c.id = 1) ∧
    P.ml_minimo_resto * zb c.id ≤ mlDisponibles c.desarrollo - ml c.id ∧
    mlDisponibles c.desarrollo - 20000 * zb c.id ≤ ml c.id

/-- Feasibility for the ILP built by `_crear_modelo_ilp`: variable kinds and
bounds (`usar` binary; `ml` in `[0, 20000]`), minimum and maximum coverage per
order, weight window per coil, big-M activation, material budget per
development (posted only when the development has candidates), minimum linear
meters per order with tolerance, and the two optional leftover blocks. -/
def Factible (P : Params) (ds : List Desarrollo) (ps : List Pedido)
    (cands : List Candidata) (y ml : ℕ → ℚ) : Prop :=
  (∀ c ∈ cands, y c.id = 0 ∨ y c.id = 1) ∧
  (∀ c ∈ cands, 0 ≤ ml c.id ∧ ml c.id ≤ 20000) ∧
  (∀ p ∈ ps, p.kg_solicitados * P.margen_cobertura ≤ kgAsignadosPedido cands p ml) ∧
  (∀ p ∈ ps, kgAsignadosPedido cands p ml ≤ p.kg_solicitados * P.margen_exceso) ∧
  (∀ c ∈ cands, kgBobina c (ml c.id) ≤ P.kg_max_bobina) ∧
  (∀ c ∈ cands, ml c.id ≤ 20000 * y c.id) ∧
  (∀ c ∈ cands, P.kg_min_bobina * y c.id ≤ kgBobina c (ml c.id)) ∧
  (∀ d ∈ ds, candidatasDe cands d ≠ [] →
    ((candidatasDe cands d).map (fun c => kgBobina c (ml c.id))).sum ≤ d.kg_disponibles) ∧
  (∀ p ∈ ps, 0 < p.ml_minimos → ∀ c ∈ cands, contiene c p →
    p.ml_minimos * (1 - P.margen_tolerancia_ml_pct / 100) * y c.id ≤ ml c.id) ∧
  (0 < P.ml_minimo_resto → RestoDesarrollos P ds cands ml ∧ RestoBobinas P cands ml)

/-- One cut line of an extracted coil (`_extraer_solucion`'s `cortes` entries). -/
structure Corte where
  pedido_id : String
  num_cortes : ℕ
  ancho : ℚ
  kg_asignados : ℚ
deriving DecidableEq

/-- One extracted coil (`_extraer_solucion`'s `bobinas_usadas` entries). -/
structure Bobina where
  desarrollo : Desarrollo
  cortes : List Corte
  metros_lineales : ℚ
  kg_totales : ℚ
  desperdicio : ℚ
deriving DecidableEq

/-- Cut lines of one extracted coil: each dict entry is joined with the first
order carrying that id (the source's `next(p for p in self.pedidos ...)`,
which cannot fail for generator-produced candidates), and weight is attributed
proportionally to the width each order occupies. -/
def extraerCortes (ps : List Pedido) (c : Candidata) (mlv : ℚ) : List Corte :=
  c.configuracion.cortes.filterMap (fun kn =>
    (ps.find? (fun p => decide (p.id = kn.1))).map (fun p =>
      ⟨kn.1, kn.2, p.ancho,
        (mlv * 2.73 * c.desarrollo.espesor * (c.configuracion.ancho_usado / 1000)) *
          (((kn.2 : ℚ) * p.ancho) / c.configuracion.ancho_usado)⟩))

/-- `_extraer_solucion`: keep the candidates whose binary variable exceeds 0.5
and whose linear meters exceed 1 (the source's `ml_valor and ml_valor > 1`),
and build the coil records. -/
def extraerSolucion (ps : List Pedido) (cands : List Candidata) (y ml : ℕ → ℚ) : List Bobina :=
  cands.filterMap (fun c =>
    if 1 / 2 < y c.id ∧ 1 < ml c.id then
      some ⟨c.desarrollo, extraerCortes ps c (ml c.id), ml c.id,
        ml c.id * 2.73 * c.desarrollo.espesor * (c.desarrollo.ancho / 1000),
        c.desperdicio⟩
    else none)

/-- One row of the output table built by `_formatear_resultado` (display
rounding of the source omitted). -/
structure Fila where
  bobina : ℕ
  desarrollo_ancho : ℚ
  desarrollo_espesor : ℚ
  pedido : String
  num_cortes : ℕ
  ancho_corte : ℚ
  metros_lineales : ℚ
  kg_asignados : ℚ
  kg_totales_bobina : ℚ
  ancho_desarrollo : ℚ
  desperdicio : ℚ

/-- Per-order coverage entry of `_formatear_resultado`. -/
structure Cobertura where
  kg_asignado : ℚ
  kg_necesario : ℚ
  porcentaje : ℚ
  cubierto : Bool

/-- The result dict of `_formatear_resultado`. -/
structure Resultado where
  num_bobinas : ℕ
  filas : List Fila
  desperdicio_total : ℚ
  kg_totales : ℚ
  cobertura : List (String × Cobertura)
  es_valido : Bool
  tiempo_resolucion : ℚ

/-- Rows of the output table: one per cut of each used coil, coils numbered
from 1. -/
def filasDe (bobinas : List Bobina) : List Fila :=
  bobinas.enum.flatMap (fun ib =>
    ib.2.cortes.map (fun corte =>
      ⟨ib.1 + 1, ib.2.desarrollo.ancho, ib.2.desarrollo.espesor, corte.pedido_id,
        corte.num_cortes, corte.ancho, ib.2.metros_lineales, corte.kg_asignados,
        ib.2.kg_totales, ib.2.desarrollo.ancho, ib.2.desperdicio⟩))

/-- Coverage entry for one order: allocated kilograms are summed over the
table rows carrying the order's id; the `covered` test uses the hardcoded 0.95
threshold of the source. -/
def coberturaDe (filas : List Fila) (p : Pedido) : Cobertura :=
  let kg_asignado := ((filas.filter (fun f => decide (f.pedido = p.id))).map
    (fun f => f.kg_asignados)).sum
  ⟨kg_asignado, p.kg_solicitados,
    if 0 < p.kg_solicitados then kg_asignado / p.kg_solicitados * 100 else 0,
    decide (p.kg_solicitados * (95 / 100) ≤ kg_asignado)⟩

/-- `_formatear_resultado`: always a one-element list (the solution dict built
by `_extraer_solucion` is never falsy), and the `tiempo_resolucion` field is
the literal `0` of the source, not the measured solve time. -/
def formatearResultado (ps : List Pedido) (bobinas : List Bobina) : List Resultado :=
  let filas := filasDe bobinas
  let cobertura := ps.map (fun p => (p.id, coberturaDe filas p))
  [⟨bobinas.length, filas,
    (bobinas.map (fun b => b.desperdicio)).sum,
    (bobinas.map (fun b => b.kg_totales)).sum,
    cobertura,
    cobertura.all (fun e => e.2.cubierto),
    0⟩]

/-- PuLP solve statuses the driver can observe. -/
inductive EstadoLp where
  | optimal
  | notSolved
  | infeasible
  | unbounded
  | undefined
deriving DecidableEq

/-- Solver outcomes named by the spec (§4.3). -/
inductive ResultadoSolver where
  | optimalProven
  | timeLimitFeasible
  | infeasible
  | unbounded
  | otro
deriving DecidableEq

/-- Modelled from the spec: the mapping from the external solver's outcome to
the PuLP status observed by `optimizar` lives in the PuLP library, outside
this repository's sources.  Spec §4.3 states that `TimeLimitReached-Feasible`
is "treated identically to Optimal", i.e. surfaces as the optimal status. -/
def estadoDe : ResultadoSolver → EstadoLp
  | .optimalProven => .optimal
  | .timeLimitFeasible => .optimal
  | .infeasible => .infeasible
  | .unbounded => .unbounded
  | .otro => .notSolved

/-- The driver's dispatch in `optimizar`: only `LpStatusOptimal` proceeds to
extraction and formatting (`tiempo` is the measured wall-clock solve duration,
which the source computes but never stores in the result). -/
def optimizarDesdeEstado (P : Params) (ds : List Desarrollo) (ps : List Pedido)
    (y ml : ℕ → ℚ) (estado : EstadoLp) (tiempo : ℚ) : List Resultado :=
  if estado = .optimal then
    formatearResultado ps (extraerSolucion ps (generarBobinasCandidatas P ds ps) y ml)
  else []

/-- The objective `_crear_modelo_ilp` minimizes: the number of used coils,
plus the per-candidate edge-waste penalty terms added only when
`factor_penalizacion_desperdicio > 0`. -/
def objetivo (P : Params) (cands : List Candidata) (y : ℕ → ℚ) : ℚ :=
  (cands.map (fun c => y c.id)).sum +
    (if 0 < P.factor_penalizacion_desperdicio then
      (cands.map (fun c => P.factor_penalizacion_desperdicio * c.desperdicio * y c.id)).sum
    else 0)

/-- Modelled from the spec (§4.2), for comparison with `objetivo`: the
objective the spec describes, `10000 × Σ use − 0.1 × Σ ml +
waste_penalty_factor × Σ waste × use`. -/
def objetivoSpec (P : Params) (cands : List Candidata) (y ml : ℕ → ℚ) : ℚ :=
  10000 * (cands.map (fun c => y c.id)).sum - 0.1 * (cands.map (fun c => ml c.id)).sum +
    P.factor_penalizacion_desperdicio * (cands.map (fun c => c.desperdicio * y c.id)).sum

/-- Allocated kilograms an order receives in an extracted solution: the sum of
`kg_asignados` over all cut lines carrying the order's id. -/
def resultKg (bobinas : List Bobina) (pid : String) : ℚ :=
  (((bobinas.flatMap (fun b => b.cortes)).filter (fun co => decide (co.pedido_id = pid))).map
    (fun co => co.kg_asignados)).sum

/-- Gross kilograms an extracted solution draws from one development. -/
def resultKgTotales (bobinas : List Bobina) (d : Desarrollo) : ℚ :=
  ((bobinas.filter (fun b => decide (b.desarrollo.id = d.id))).map (fun b => b.kg_totales)).sum

/-- Witness parameters: default waste window and weight window, two cuts per
order at most, leftover rule disabled, no waste penalty. -/
def paramsW : Params := ⟨0, 30, 4000, 200, 2, 95 / 100, 11 / 10, 10, 0, 6, 0⟩

/-- Witness stock roll: 1000 mm × 1 mm, 10000 kg available. -/
def desW : Desarrollo := ⟨0, 1000, 1, "AL", "H1", 10000⟩

/-- Witness order: 500 mm, 2730 kg requested. -/
def pedidoW : Pedido := ⟨"P1", 500, 2730, "AL", "H1", 1, 0⟩

/-- The single configuration the generator produces on the witness data:
two 500 mm cuts, zero edge waste. -/
def configW : Configuracion := ⟨[("P1", 2)], 1000⟩

/-- The single candidate coil on the witness data. -/
def candW : Candidata := ⟨1, desW, configW, 0⟩

/-- Witness assignment: the only candidate is used at 1000 linear meters. -/
def yW : ℕ → ℚ := fun _ => 1

/-- Witness linear meters. -/
def mlW : ℕ → ℚ := fun _ => 1000

/-- The single extracted coil on the witness data. -/
def bobinaW : Bobina := ⟨desW, [⟨"P1", 2, 500, 2730⟩], 1000, 2730, 0⟩

/-- Two-order witness data: a candidate putting one 300 mm cut of order `A`
and two 350 mm cuts of order `B` on the 1000 mm stock roll. -/
def pedidoA : Pedido := ⟨"A", 300, 1000, "AL", "H1", 1, 0⟩

/-- Second order of the two-order witness. -/
def pedidoB : Pedido := ⟨"B", 350, 1000, "AL", "H1", 1, 0⟩

/-- Candidate of the two-order witness. -/
def candAB : Candidata := ⟨1, desW, ⟨[("A", 1), ("B", 2)], 1000⟩, 0⟩

/-- Linear meters of the two-order witness. -/
def mlAB : ℕ → ℚ := fun _ => 10

/-- Extracted coil of the two-order witness. -/
def bobinaAB : Bobina :=
  ⟨desW, [⟨"A", 1, 300, 819 / 100⟩, ⟨"B", 2, 350, 1911 / 100⟩], 10, 273 / 10, 0⟩

/-- Failing-input parameters for C5: at most 3 distinct orders per pattern,
one cut per order. -/
def params5 : Params := ⟨0, 30, 4000, 200, 1, 95 / 100, 11 / 10, 10, 0, 3, 0⟩

/-- Failing-input stock roll for C5: 600 mm wide. -/
def des5 : Desarrollo := ⟨0, 600, 1, "AL", "H1", 10000⟩

/-- Failing-input orders for C5: six distinct 100 mm orders. -/
def pedidos5 : List Pedido :=
  [⟨"A", 100, 50, "AL", "H1", 1, 0⟩, ⟨"B", 100, 50, "AL", "H1", 1, 0⟩,
   ⟨"C", 100, 50, "AL", "H1", 1, 0⟩, ⟨"D", 100, 50, "AL", "H1", 1, 0⟩,
   ⟨"E", 100, 50, "AL", "H1", 1, 0⟩, ⟨"F", 100, 50, "AL", "H1", 1, 0⟩]

/-- Counterexample parameters for C1: defaults with two cuts per order. -/
def paramsC : Params := ⟨0, 30, 4000, 200, 2, 95 / 100, 11 / 10, 10, 0, 6, 0⟩

/-- First counterexample stock roll: 1000 mm × 400 mm thick, 5000 kg. -/
def desC0 : Desarrollo := ⟨0, 1000, 400, "AL", "H1", 5000⟩

/-- Second counterexample stock roll, same geometry. -/
def desC1 : Desarrollo := ⟨1, 1000, 400, "AL", "H1", 5000⟩

/-- Counterexample order: 500 mm wide, 3900 kg requested. -/
def pedidoC : Pedido := ⟨"P", 500, 3900, "AL", "H1", 400, 0⟩

/-- The two candidate coils of the counterexample (one per stock roll). -/
def candsC : List Candidata :=
  [⟨1, desC0, ⟨[("P", 2)], 1000⟩, 0⟩, ⟨2, desC1, ⟨[("P", 2)], 1000⟩, 0⟩]

/-- Counterexample binaries: both candidates selected. -/
def yC : ℕ → ℚ := fun _ => 1

/-- Counterexample linear meters: candidate 1 runs only 0.5 m (below the
extractor's noise floor yet carrying 546 kg of the model's coverage),
candidate 2 runs 3 m. -/
def mlC : ℕ → ℚ := fun i => if i = 1 then 1 / 2 else 3

/-- The single coil the extractor keeps in the counterexample. -/
def bobinaC : Bobina := ⟨desC1, [⟨"P", 2, 500, 3276⟩], 3, 3276, 0⟩

/-- Two configurations carry the same order ↦ count mapping. -/
def MapEq (c1 c2 : Configuracion) : Prop :=
  ∀ k, c1.cortes.lookup k = c2.cortes.lookup k

/-- No two candidates of the list share both stock roll and mapping. -/
def SinDuplicados (cands : List Candidata) : Prop :=
  cands.Pairwise (fun c1 c2 =>
    c1.desarrollo.id = c2.desarrollo.id → ¬MapEq c1.configuracion c2.configuracion)

/-- Shape invariant of one enumeration branch: all selections have the
branch's size, draw from the order list, and are pairwise distinct. -/
def BranchOk (ps : List Pedido) (k : ℕ) (sels : List Seleccion) : Prop :=
  (∀ sel ∈ sels, sel.length = k ∧ (sel.map Prod.fst).Sublist ps) ∧ sels.Nodup

/-- Parameters for the C8 counterexample: one cut per order at most. -/
def params8 : Params := ⟨0, 30, 4000, 200, 1, 95 / 100, 11 / 10, 10, 0, 6, 0⟩

/-- Stock roll of the C8 counterexample. -/
def des8 : Desarrollo := ⟨0, 100, 1, "AL", "H1", 1000⟩

/-- Order of the C8 counterexample; the input lists it twice under the same
id. -/
def pedido8 : Pedido := ⟨"A", 100, 50, "AL", "H1", 1, 0⟩

/-! Theorems. -/

theorem mem_emitConfigs {cond : Seleccion → Prop} [DecidablePred cond]
    {sels : List Seleccion} {cfg : Configuracion} :
    cfg ∈ emitConfigs cond sels ↔ ∃ sel ∈ sels, cond sel ∧ cfg = mkConfiguracion sel := by
  unfold emitConfigs
  simp only [List.mem_flatMap]
  constructor
  · rintro ⟨sel, hsel, hm⟩
    by_cases h : cond sel
    · simp only [if_pos h, List.mem_singleton] at hm
      exact ⟨sel, hsel, h, hm⟩
    · simp [if_neg h] at hm
  · rintro ⟨sel, hsel, h, rfl⟩
    exact ⟨sel, hsel, by simp [if_pos h]⟩

theorem mem_selsBranch1 {P : Params} {d : Desarrollo} {ps : List Pedido} {sel : Seleccion}
    (h : sel ∈ selsBranch1 P d ps) :
    ∃ p ∈ ps, ∃ n : ℕ, 1 ≤ n ∧ sel = [(p, n)] := by
  unfold selsBranch1 at h
  simp only [List.mem_flatMap, List.mem_map] at h
  obtain ⟨p, hp, n, hn, rfl⟩ := h
  refine ⟨p, hp, n, ?_, rfl⟩
  have := List.mem_range'.mp hn
  omega

theorem countTuples_length {caps : List ℕ} {ns : List ℕ} (h : ns ∈ countTuples caps) :
    ns.length = caps.length := by
  induction caps generalizing ns with
  | nil => simp [countTuples] at h; simp [h]
  | cons c cs ih =>
    simp only [countTuples, List.mem_flatMap, List.mem_map] at h
    obtain ⟨n, _, t, ht, rfl⟩ := h
    simp [ih ht]

theorem countTuples_pos {caps : List ℕ} {ns : List ℕ} (h : ns ∈ countTuples caps) :
    ∀ n ∈ ns, 1 ≤ n := by
  induction caps generalizing ns with
  | nil => simp [countTuples] at h; simp [h]
  | cons c cs ih =>
    simp only [countTuples, List.mem_flatMap, List.mem_map] at h
    obtain ⟨n, hn, t, ht, rfl⟩ := h
    intro m hm
    rcases List.mem_cons.mp hm with rfl | hm
    · have := List.mem_range'.mp hn
      omega
    · exact ih ht m hm

theorem combinations_sublist {k : ℕ} {l : List α} {c : List α} (h : c ∈ combinations k l) :
    c.Sublist l := by
  induction l generalizing k c with
  | nil =>
    cases k with
    | zero => simp [combinations] at h; simp [h]
    | succ k => simp [combinations] at h
  | cons x xs ih =>
    cases k with
    | zero =>
      simp [combinations] at h
      simp [h]
    | succ k =>
      simp only [combinations, List.mem_append, List.mem_map] at h
      rcases h with ⟨c', hc', rfl⟩ | h
      · exact List.cons_sublist_cons.mpr (ih hc')
      · exact (ih h).trans (List.sublist_cons_self x xs)

theorem combinations_length {k : ℕ} {l : List α} {c : List α} (h : c ∈ combinations k l) :
    c.length = k := by
  induction l generalizing k c with
  | nil =>
    cases k with
    | zero => simp [combinations] at h; simp [h]
    | succ k => simp [combinations] at h
  | cons x xs ih =>
    cases k with
    | zero => simp [combinations] at h; simp [h]
    | succ k =>
      simp only [combinations, List.mem_append, List.mem_map] at h
      rcases h with ⟨c', hc', rfl⟩ | h
      · simp [ih hc']
      · exact ih h

theorem mem_selsOf {k : ℕ} {caps : List ℕ} {ps : List Pedido} {sel : Seleccion}
    (h : sel ∈ selsOf k caps ps) :
    ∃ combo ∈ combinations k ps, ∃ ns ∈ countTuples caps, sel = combo.zip ns := by
  unfold selsOf at h
  simp only [List.mem_flatMap, List.mem_map] at h
  obtain ⟨combo, hc, ns, hns, rfl⟩ := h
  exact ⟨combo, hc, ns, hns, rfl⟩

theorem selsOf_shape {k : ℕ} {caps : List ℕ} {ps : List Pedido} {sel : Seleccion}
    (hcaps : caps.length = k) (h : sel ∈ selsOf k caps ps) :
    (sel.map Prod.fst).Sublist ps ∧ sel.length = k ∧ (∀ pn ∈ sel, 1 ≤ pn.2) := by
  obtain ⟨combo, hc, ns, hns, rfl⟩ := mem_selsOf h
  have hlc : combo.length = k := combinations_length hc
  have hln : ns.length = k := (countTuples_length hns).trans hcaps
  have hzlen : (combo.zip ns).length = k := by
    rw [List.length_zip, hlc, hln, min_self]
  refine ⟨?_, hzlen, ?_⟩
  · have : (combo.zip ns).map Prod.fst = combo := by
      apply List.map_fst_zip
      omega
    rw [this]
    exact combinations_sublist hc
  · intro pn hpn
    have := List.of_mem_zip hpn
    exact countTuples_pos hns pn.2 this.2

/-- Every configuration the generator emits comes from a nonempty selection of
compatible orders (each with at least one cut), is exactly the dict-and-width
record `mkConfiguracion` builds from it, and passed the edge-waste window. -/
theorem mem_generarConfiguracionesCorte {P : Params} {d : Desarrollo} {ps : List Pedido}
    {cfg : Configuracion} (h : cfg ∈ generarConfiguracionesCorte P d ps) :
    ∃ sel : Seleccion, cfg = mkConfiguracion sel ∧ (sel.map Prod.fst).Sublist ps ∧
      sel ≠ [] ∧ (∀ pn ∈ sel, 1 ≤ pn.2) ∧
      P.desperdicio_bordes_minimo ≤ d.ancho - selSum sel ∧
      d.ancho - selSum sel ≤ P.desperdicio_bordes_maximo := by
  unfold generarConfiguracionesCorte at h
  simp only [List.mem_append] at h
  have hb1 : cfg ∈ emitConfigs (condBranch1 P d) (selsBranch1 P d ps) →
      ∃ sel : Seleccion, cfg = mkConfiguracion sel ∧ (sel.map Prod.fst).Sublist ps ∧
        sel ≠ [] ∧ (∀ pn ∈ sel, 1 ≤ pn.2) ∧
        P.desperdicio_bordes_minimo ≤ d.ancho - selSum sel ∧
        d.ancho - selSum sel ≤ P.desperdicio_bordes_maximo := by
    intro h
    obtain ⟨sel, hsel, hcond, rfl⟩ := mem_emitConfigs.mp h
    obtain ⟨p, hp, n, hn, rfl⟩ := mem_selsBranch1 hsel
    refine ⟨[(p, n)], rfl, ?_, by simp, ?_, hcond.1, hcond.2⟩
    · simpa using List.singleton_sublist.mpr hp
    · intro pn hpn
      rcases List.mem_singleton.mp hpn with rfl
      exact hn
  have hbk : ∀ k : ℕ, (capsOf P k).length = k →
      cfg ∈ emitConfigs (condBranchMulti P d) (selsOf k (capsOf P k) ps) → 1 ≤ k →
      ∃ sel : Seleccion, cfg = mkConfiguracion sel ∧ (sel.map Prod.fst).Sublist ps ∧
        sel ≠ [] ∧ (∀ pn ∈ sel, 1 ≤ pn.2) ∧
        P.desperdicio_bordes_minimo ≤ d.ancho - selSum sel ∧
        d.ancho - selSum sel ≤ P.desperdicio_bordes_maximo := by
    intro k hlen h hk
    obtain ⟨sel, hsel, hcond, rfl⟩ := mem_emitConfigs.mp h
    obtain ⟨hsub, hslen, hpos⟩ := selsOf_shape hlen hsel
    refine ⟨sel, rfl, hsub, ?_, hpos, hcond.2.1, hcond.2.2⟩
    intro hnil
    rw [hnil] at hslen
    simp at hslen
    omega
  rcases h with ((((h | h) | h) | h) | h) | h
  · exact hb1 h
  · exact hbk 2 rfl h (by omega)
  · exact hbk 3 rfl h (by omega)
  · split at h
    · exact hbk 4 rfl h (by omega)
    · simp at h
  · split at h
    · exact hbk 5 rfl h (by omega)
    · simp at h
  · exact hbk 6 rfl h (by omega)

theorem dictInsert_of_not_mem {m : List (String × ℕ)} {k : String} {v : ℕ}
    (h : k ∉ m.map Prod.fst) : dictInsert m k v = m ++ [(k, v)] := by
  unfold dictInsert
  rw [if_neg]
  simp only [List.any_eq_true, decide_eq_true_eq, not_exists]
  intro e he
  exact h (List.mem_map.mpr ⟨e, he.1, he.2⟩)

theorem foldl_dictInsert_eq_append (l acc : List (String × ℕ))
    (h : (acc.map Prod.fst ++ l.map Prod.fst).Nodup) :
    l.foldl (fun m kv => dictInsert m kv.1 kv.2) acc = acc ++ l := by
  induction l generalizing acc with
  | nil => simp
  | cons kv t ih =>
    have hk : kv.1 ∉ acc.map Prod.fst := by
      intro hmem
      have := (List.nodup_append.mp h).2.2
      exact this hmem (by simp)
    rw [List.foldl_cons, dictInsert_of_not_mem hk, ih]
    · simp
    · simp only [List.map_append, List.map_cons] at h ⊢
      simp only [List.map_nil]
      have : acc.map Prod.fst ++ [kv.1] ++ t.map Prod.fst =
          acc.map Prod.fst ++ (kv.1 :: t.map Prod.fst) := by simp
      rw [this]
      exact h

/-- With pairwise distinct keys a Python dict literal is just its entry list. -/
theorem dictOfList_eq_self {l : List (String × ℕ)} (h : (l.map Prod.fst).Nodup) :
    dictOfList l = l := by
  unfold dictOfList
  have := foldl_dictInsert_eq_append l [] (by simpa using h)
  simpa using this

theorem lookup_eq_some_of_mem {l : List (String × ℕ)} {k : String} {n : ℕ}
    (hnd : (l.map Prod.fst).Nodup) (h : (k, n) ∈ l) : l.lookup k = some n := by
  induction l with
  | nil => simp at h
  | cons e t ih =>
    rcases List.mem_cons.mp h with rfl | hmem
    · simp [List.lookup]
    · have hne : e.1 ≠ k := by
        intro he
        have : k ∈ t.map Prod.fst := List.mem_map.mpr ⟨(k, n), hmem, rfl⟩
        rw [List.map_cons, List.nodup_cons, he] at hnd
        exact hnd.1 this
      have : (k == e.1) = false := by
        simp only [beq_eq_false_iff_ne, ne_eq]
        exact fun hk => hne hk.symm
      simp only [List.lookup, this]
      exact ih (by rw [List.map_cons, List.nodup_cons] at hnd; exact hnd.2) hmem

theorem lookup_isSome_iff {l : List (String × ℕ)} {k : String} :
    (l.lookup k).isSome = true ↔ k ∈ l.map Prod.fst := by
  induction l with
  | nil => simp [List.lookup]
  | cons e t ih =>
    by_cases hk : k = e.1
    · subst hk
      simp [List.lookup]
    · have : (k == e.1) = false := by simpa using hk
      simp only [List.lookup, this, List.map_cons, List.mem_cons]
      rw [ih]
      exact ⟨fun h => Or.inr h, fun h => h.elim (fun h => absurd h hk) id⟩

theorem mem_of_lookup_eq_some {l : List (String × ℕ)} {k : String} {n : ℕ}
    (h : l.lookup k = some n) : (k, n) ∈ l := by
  induction l with
  | nil => simp [List.lookup] at h
  | cons e t ih =>
    by_cases hk : (k == e.1) = true
    · simp only [List.lookup, hk] at h
      have : e = (k, n) := by
        rcases e with ⟨k', n'⟩
        simp only [Option.some_inj] at h
        simp only [beq_iff_eq] at hk
        simp [hk, h]
      simp [this]
    · simp only [List.lookup, Bool.not_eq_true] at h hk
      rw [hk] at h
      exact List.mem_cons.mpr (Or.inr (ih h))

theorem pedidosCompatibles_sublist (d : Desarrollo) (ps : List Pedido) :
    (pedidosCompatibles d ps).Sublist ps :=
  List.filter_sublist ps

theorem mem_enum_snd {l : List α} {x : ℕ × α} (h : x ∈ l.enum) : x.2 ∈ l :=
  List.getElem?_mem (List.mem_enum_iff_getElem?.mp h)

/-- Every candidate the pipeline hands to the model builder: its development
is one of the inputs, its configuration comes from the generator run on that
development's compatible orders, and its waste field is width minus used
width. -/
theorem mem_generarBobinasCandidatas {P : Params} {ds : List Desarrollo} {ps : List Pedido}
    {c : Candidata} (h : c ∈ generarBobinasCandidatas P ds ps) :
    ∃ d ∈ ds, c.desarrollo = d ∧
      c.configuracion ∈ generarConfiguracionesCorte P d (pedidosCompatibles d ps) ∧
      c.desperdicio = d.ancho - c.configuracion.ancho_usado := by
  unfold generarBobinasCandidatas at h
  simp only [List.mem_map] at h
  obtain ⟨ic, hic, rfl⟩ := h
  have h2 := mem_enum_snd hic
  simp only [List.mem_flatMap, List.mem_map] at h2
  obtain ⟨d, hd, cfg, hcfg, hpair⟩ := h2
  refine ⟨d, hd, ?_, ?_, ?_⟩ <;> simp [← hpair, hcfg]

/-- Combined shape facts for a pipeline candidate, in terms of its generating
selection. -/
theorem candidata_seleccion {P : Params} {ds : List Desarrollo} {ps : List Pedido}
    {c : Candidata} (h : c ∈ generarBobinasCandidatas P ds ps) :
    ∃ d ∈ ds, ∃ sel : Seleccion, c.desarrollo = d ∧ c.configuracion = mkConfiguracion sel ∧
      c.desperdicio = d.ancho - selSum sel ∧
      (sel.map Prod.fst).Sublist (pedidosCompatibles d ps) ∧ sel ≠ [] ∧
      (∀ pn ∈ sel, 1 ≤ pn.2) ∧
      P.desperdicio_bordes_minimo ≤ d.ancho - selSum sel ∧
      d.ancho - selSum sel ≤ P.desperdicio_bordes_maximo := by
  obtain ⟨d, hd, hdes, hcfg, hdesp⟩ := mem_generarBobinasCandidatas h
  obtain ⟨sel, hsel, hsub, hne, hpos, hw1, hw2⟩ := mem_generarConfiguracionesCorte hcfg
  exact ⟨d, hd, sel, hdes, hsel, by rw [hdesp, hsel]; rfl, hsub, hne, hpos, hw1, hw2⟩

/-- C2.  Every configuration produced by the pattern generator — in every
enumeration branch — has its edge waste `stock_width − used_width` inside
`[waste_min, waste_max]`, uses at most the stock width, and its stored
`ancho_usado` is exactly `Σ count_i × order_width_i` over a nonempty selection
of orders from the given list, each with at least one cut. -/
theorem generar_waste_window {P : Params} {d : Desarrollo} {ps : List Pedido}
    {cfg : Configuracion}
    (hmin : 0 ≤ P.desperdicio_bordes_minimo)
    (hminmax : P.desperdicio_bordes_minimo ≤ P.desperdicio_bordes_maximo)
    (h : cfg ∈ generarConfiguracionesCorte P d ps) :
    P.desperdicio_bordes_minimo ≤ d.ancho - cfg.ancho_usado ∧
    d.ancho - cfg.ancho_usado ≤ P.desperdicio_bordes_maximo ∧
    cfg.ancho_usado ≤ d.ancho ∧
    ∃ sel : Seleccion, sel ≠ [] ∧ (∀ pn ∈ sel, pn.1 ∈ ps ∧ 1 ≤ pn.2) ∧
      cfg.ancho_usado = selSum sel := by
  obtain ⟨sel, rfl, hsub, hne, hpos, hw1, hw2⟩ := mem_generarConfiguracionesCorte h
  have husado : (mkConfiguracion sel).ancho_usado = selSum sel := rfl
  rw [husado]
  refine ⟨hw1, hw2, by linarith, sel, hne, ?_, rfl⟩
  intro pn hpn
  refine ⟨?_, hpos pn hpn⟩
  exact hsub.subset (List.mem_map.mpr ⟨pn, hpn, rfl⟩)

theorem eval_configuracionesW :
    generarConfiguracionesCorte paramsW desW [pedidoW] = [configW] := by
  norm_num [generarConfiguracionesCorte, emitConfigs, selsBranch1, selsOf, combinations,
    countTuples, condBranch1, condBranchMulti, selSum, mkConfiguracion, dictOfList, dictInsert,
    capsOf, paramsW, desW, pedidoW, configW, List.range']

theorem eval_compatiblesW : pedidosCompatibles desW [pedidoW] = [pedidoW] := by
  norm_num [pedidosCompatibles, desW, pedidoW]

theorem eval_candidatasW : generarBobinasCandidatas paramsW [desW] [pedidoW] = [candW] := by
  unfold generarBobinasCandidatas
  rw [show [desW].flatMap (fun d =>
      (generarConfiguracionesCorte paramsW d (pedidosCompatibles d [pedidoW])).map
        (fun cfg => (d, cfg))) = [(desW, configW)] by
    rw [List.flatMap_cons, eval_compatiblesW, eval_configuracionesW]; simp]
  norm_num [List.enum, List.enumFrom, candW, desW, configW]

theorem eval_factibleW : Factible paramsW [desW] [pedidoW] [candW] yW mlW := by
  unfold Factible
  refine ⟨?_, ?_, ?_, ?_, ?_, ?_, ?_, ?_, ?_, ?_⟩
  · intro c hc
    right
    rfl
  · intro c hc
    constructor <;> norm_num [mlW]
  · intro p hp
    rcases List.mem_singleton.mp hp with rfl
    norm_num [kgAsignadosPedido, kgAsignado, contiene, candW, configW, desW, pedidoW, paramsW,
      mlW, List.lookup]
  · intro p hp
    rcases List.mem_singleton.mp hp with rfl
    norm_num [kgAsignadosPedido, kgAsignado, contiene, candW, configW, desW, pedidoW, paramsW,
      mlW, List.lookup]
  · intro c hc
    rcases List.mem_singleton.mp hc with rfl
    norm_num [kgBobina, candW, desW, paramsW, mlW]
  · intro c hc
    rcases List.mem_singleton.mp hc with rfl
    norm_num [yW, mlW]
  · intro c hc
    rcases List.mem_singleton.mp hc with rfl
    norm_num [kgBobina, candW, desW, paramsW, mlW, yW]
  · intro d hd hne
    rcases List.mem_singleton.mp hd with rfl
    norm_num [candidatasDe, kgBobina, candW, desW, mlW, List.filter]
  · intro p hp hml
    rcases List.mem_singleton.mp hp with rfl
    norm_num [pedidoW] at hml
  · intro h
    norm_num [paramsW] at h

theorem eval_extraerW : extraerSolucion [pedidoW] [candW] yW mlW = [bobinaW] := by
  norm_num [extraerSolucion, extraerCortes, candW, configW, desW, pedidoW, yW, mlW, bobinaW,
    List.filterMap, List.find?]

theorem generar_waste_window_witness :
    (0 : ℚ) ≤ paramsW.desperdicio_bordes_minimo ∧
    paramsW.desperdicio_bordes_minimo ≤ paramsW.desperdicio_bordes_maximo ∧
    configW ∈ generarConfiguracionesCorte paramsW desW [pedidoW] ∧
    (paramsW.desperdicio_bordes_minimo ≤ desW.ancho - configW.ancho_usado ∧
      desW.ancho - configW.ancho_usado ≤ paramsW.desperdicio_bordes_maximo ∧
      configW.ancho_usado ≤ desW.ancho ∧
      ∃ sel : Seleccion, sel ≠ [] ∧ (∀ pn ∈ sel, pn.1 ∈ [pedidoW] ∧ 1 ≤ pn.2) ∧
        configW.ancho_usado = selSum sel) :=
  have h1 : (0 : ℚ) ≤ paramsW.desperdicio_bordes_minimo := by norm_num [paramsW]
  have h2 : paramsW.desperdicio_bordes_minimo ≤ paramsW.desperdicio_bordes_maximo := by
    norm_num [paramsW]
  have h3 : configW ∈ generarConfiguracionesCorte paramsW desW [pedidoW] := by
    rw [eval_configuracionesW]
    exact List.mem_singleton.mpr rfl
  ⟨h1, h2, h3, generar_waste_window h1 h2 h3⟩

theorem mem_extraerSolucion {ps : List Pedido} {cands : List Candidata} {y ml : ℕ → ℚ}
    {b : Bobina} :
    b ∈ extraerSolucion ps cands y ml ↔ ∃ c ∈ cands, (1 / 2 < y c.id ∧ 1 < ml c.id) ∧
      b = ⟨c.desarrollo, extraerCortes ps c (ml c.id), ml c.id,
        ml c.id * 2.73 * c.desarrollo.espesor * (c.desarrollo.ancho / 1000),
        c.desperdicio⟩ := by
  unfold extraerSolucion
  rw [List.mem_filterMap]
  constructor
  · rintro ⟨c, hc, hsome⟩
    by_cases h : 1 / 2 < y c.id ∧ 1 < ml c.id
    · rw [if_pos h, Option.some_inj] at hsome
      exact ⟨c, hc, h, hsome.symm⟩
    · rw [if_neg h] at hsome
      exact absurd hsome (by simp)
  · rintro ⟨c, hc, h, rfl⟩
    exact ⟨c, hc, by rw [if_pos h]⟩

theorem extraerCortes_kg_form {ps : List Pedido} {c : Candidata} {mlv : ℚ} {co : Corte}
    (h : co ∈ extraerCortes ps c mlv) :
    co.kg_asignados = (mlv * 2.73 * c.desarrollo.espesor * (c.configuracion.ancho_usado / 1000)) *
      (((co.num_cortes : ℚ) * co.ancho) / c.configuracion.ancho_usado) := by
  unfold extraerCortes at h
  rw [List.mem_filterMap] at h
  obtain ⟨kn, _, hsome⟩ := h
  rw [Option.map_eq_some'] at hsome
  obtain ⟨p, _, rfl⟩ := hsome
  rfl

/-- C7.  Within one extracted coil, allocated weights are exactly proportional
to the widths occupied: for any two cut lines,
`kg_i × (count_j × width_j) = kg_j × (count_i × width_i)`.  The requested
weights of the orders do not enter the attribution. -/
theorem proporcionalidad_asignacion {ps : List Pedido} {cands : List Candidata}
    {y ml : ℕ → ℚ} {b : Bobina} {c1 c2 : Corte}
    (hb : b ∈ extraerSolucion ps cands y ml) (h1 : c1 ∈ b.cortes) (h2 : c2 ∈ b.cortes) :
    c1.kg_asignados * ((c2.num_cortes : ℚ) * c2.ancho) =
      c2.kg_asignados * ((c1.num_cortes : ℚ) * c1.ancho) := by
  obtain ⟨c, _, _, rfl⟩ := mem_extraerSolucion.mp hb
  rw [extraerCortes_kg_form h1, extraerCortes_kg_form h2]
  ring

theorem eval_extraerAB : extraerSolucion [pedidoA, pedidoB] [candAB] yW mlAB = [bobinaAB] := by
  have hA : List.find? (fun p => decide (p.id = "A")) [pedidoA, pedidoB] = some pedidoA := rfl
  have hB : List.find? (fun p => decide (p.id = "B")) [pedidoA, pedidoB] = some pedidoB := rfl
  simp only [pedidoA, pedidoB] at hA hB
  norm_num [extraerSolucion, extraerCortes, candAB, desW, yW, mlAB, bobinaAB,
    List.filterMap, hA, hB, pedidoA, pedidoB]

theorem proporcionalidad_asignacion_witness :
    bobinaAB ∈ extraerSolucion [pedidoA, pedidoB] [candAB] yW mlAB ∧
    (⟨"A", 1, 300, 819 / 100⟩ : Corte) ∈ bobinaAB.cortes ∧
    (⟨"B", 2, 350, 1911 / 100⟩ : Corte) ∈ bobinaAB.cortes ∧
    (819 / 100 : ℚ) * ((2 : ℕ) * (350 : ℚ)) = (1911 / 100 : ℚ) * ((1 : ℕ) * (300 : ℚ)) :=
  have hb : bobinaAB ∈ extraerSolucion [pedidoA, pedidoB] [candAB] yW mlAB := by
    rw [eval_extraerAB]
    exact List.mem_singleton.mpr rfl
  have h1 : (⟨"A", 1, 300, 819 / 100⟩ : Corte) ∈ bobinaAB.cortes := by
    simp [bobinaAB]
  have h2 : (⟨"B", 2, 350, 1911 / 100⟩ : Corte) ∈ bobinaAB.cortes := by
    simp [bobinaAB]
  ⟨hb, h1, h2, proporcionalidad_asignacion hb h1 h2⟩

/-- C10.  In every returned solution each coil's linear meters are at most the
hardcoded variable bound 20000, for every parameter setting: the bound does
not scale with `kg_max_bobina`, thickness or width. -/
theorem extraccion_ml_bound {P : Params} {ds : List Desarrollo} {ps : List Pedido}
    {cands : List Candidata} {y ml : ℕ → ℚ}
    (hf : Factible P ds ps cands y ml) :
    ∀ b ∈ extraerSolucion ps cands y ml, b.metros_lineales ≤ 20000 := by
  intro b hb
  obtain ⟨c, hc, _, rfl⟩ := mem_extraerSolucion.mp hb
  exact (hf.2.1 c hc).2

theorem extraccion_ml_bound_witness :
    Factible paramsW [desW] [pedidoW] [candW] yW mlW ∧
    bobinaW ∈ extraerSolucion [pedidoW] [candW] yW mlW ∧
    bobinaW.metros_lineales ≤ 20000 :=
  have hb : bobinaW ∈ extraerSolucion [pedidoW] [candW] yW mlW := by
    rw [eval_extraerW]
    exact List.mem_singleton.mpr rfl
  ⟨eval_factibleW, hb, extraccion_ml_bound eval_factibleW bobinaW hb⟩

/-- C4 counterexample: on a one-candidate model with penalty factor 0, the
objective the code builds differs from the three-term weighted objective the
spec describes (1 versus 9900). -/
theorem objetivo_ne_objetivoSpec :
    objetivo paramsW [candW] yW ≠ objetivoSpec paramsW [candW] yW mlW := by
  norm_num [objetivo, objetivoSpec, paramsW, candW, yW, mlW]

/-- C4 (amended).  The objective actually minimized is
`Σ use + waste_penalty_factor × Σ waste × use`: the setup-count term has
weight 1, not 10000, and there is no linear-meter term. -/
theorem objetivo_forma {P : Params} (cands : List Candidata) (y : ℕ → ℚ)
    (h : 0 ≤ P.factor_penalizacion_desperdicio) :
    objetivo P cands y = (cands.map (fun c => y c.id)).sum +
      P.factor_penalizacion_desperdicio *
        (cands.map (fun c => c.desperdicio * y c.id)).sum := by
  unfold objetivo
  have hfun : (fun c : Candidata =>
      P.factor_penalizacion_desperdicio * c.desperdicio * y c.id) =
      fun c : Candidata =>
        P.factor_penalizacion_desperdicio * (c.desperdicio * y c.id) := by
    funext c
    ring
  rcases lt_or_eq_of_le h with hlt | heq
  · rw [if_pos hlt, hfun, List.sum_map_mul_left]
  · rw [if_neg (by rw [← heq]; exact lt_irrefl 0), ← heq]
    ring

theorem objetivo_forma_witness :
    (0 : ℚ) ≤ paramsW.factor_penalizacion_desperdicio ∧
    objetivo paramsW [candW] yW = ([candW].map (fun c => yW c.id)).sum +
      paramsW.factor_penalizacion_desperdicio *
        ([candW].map (fun c => c.desperdicio * yW c.id)).sum :=
  ⟨by norm_num [paramsW], objetivo_forma [candW] yW (by norm_num [paramsW])⟩

/-- C6.  The driver treats a time-limit-with-incumbent outcome identically to
a proven-optimal outcome — both proceed to extraction and produce a non-empty
(singleton) result — while infeasible, unbounded and any other outcome yield
the empty list, never a partial allocation.  (The mapping of solver outcomes
to PuLP statuses is the spec-modelled `estadoDe`.) -/
theorem dispatch_estados (P : Params) (ds : List Desarrollo) (ps : List Pedido)
    (y ml : ℕ → ℚ) (tiempo : ℚ) :
    optimizarDesdeEstado P ds ps y ml (estadoDe .timeLimitFeasible) tiempo =
      optimizarDesdeEstado P ds ps y ml (estadoDe .optimalProven) tiempo ∧
    optimizarDesdeEstado P ds ps y ml (estadoDe .timeLimitFeasible) tiempo ≠ [] ∧
    optimizarDesdeEstado P ds ps y ml (estadoDe .infeasible) tiempo = [] ∧
    optimizarDesdeEstado P ds ps y ml (estadoDe .unbounded) tiempo = [] ∧
    optimizarDesdeEstado P ds ps y ml (estadoDe .otro) tiempo = [] := by
  refine ⟨rfl, ?_, ?_, ?_, ?_⟩
  · unfold optimizarDesdeEstado estadoDe formatearResultado
    simp
  · unfold optimizarDesdeEstado estadoDe
    simp
  · unfold optimizarDesdeEstado estadoDe
    simp
  · unfold optimizarDesdeEstado estadoDe
    simp

/-- C9.  Whatever wall-clock duration the solve call measured, the returned
report's `tiempo_resolucion` field is the hardcoded literal 0 — the measured
time is never stored. -/
theorem tiempo_resolucion_cero (P : Params) (ds : List Desarrollo) (ps : List Pedido)
    (y ml : ℕ → ℚ) (tiempo : ℚ) :
    (optimizarDesdeEstado P ds ps y ml (estadoDe .optimalProven) tiempo).map
      (fun r => r.tiempo_resolucion) = [(0 : ℚ)] := rfl

/-- C5.  With `max_pedidos_por_configuracion = 3` the generator still emits a
pattern containing six distinct orders: the 6-order enumeration branch is not
gated on the parameter (the 4- and 5-order branches are). -/
theorem seis_pedidos_leak :
    params5.max_pedidos_por_configuracion = 3 ∧
    ∃ cfg ∈ generarConfiguracionesCorte params5 des5 pedidos5, 3 < cfg.cortes.length := by
  refine ⟨rfl, ?_⟩
  have hdict : dictOfList [("A", 1), ("B", 1), ("C", 1), ("D", 1), ("E", 1), ("F", 1)] =
      [("A", 1), ("B", 1), ("C", 1), ("D", 1), ("E", 1), ("F", 1)] := rfl
  have heval : generarConfiguracionesCorte params5 des5 pedidos5 =
      [⟨[("A", 1), ("B", 1), ("C", 1), ("D", 1), ("E", 1), ("F", 1)], 600⟩] := by
    norm_num [generarConfiguracionesCorte, emitConfigs, selsBranch1, selsOf, combinations,
      countTuples, condBranch1, condBranchMulti, selSum, mkConfiguracion, hdict,
      capsOf, params5, des5, pedidos5, List.range']
  rw [heval]
  exact ⟨_, List.mem_singleton.mpr rfl, by norm_num⟩

theorem extraer_cons {ps : List Pedido} {c : Candidata} {t : List Candidata} {y ml : ℕ → ℚ} :
    extraerSolucion ps (c :: t) y ml =
      (if 1 / 2 < y c.id ∧ 1 < ml c.id then
        [⟨c.desarrollo, extraerCortes ps c (ml c.id), ml c.id,
          ml c.id * 2.73 * c.desarrollo.espesor * (c.desarrollo.ancho / 1000),
          c.desperdicio⟩]
      else []) ++ extraerSolucion ps t y ml := by
  by_cases hc : 1 / 2 < y c.id ∧ 1 < ml c.id
  · have h1 : (2 : ℚ)⁻¹ < y c.id := by simpa using hc.1
    simp [extraerSolucion, List.filterMap_cons, h1, hc.2]
  · have h1 : ¬((2 : ℚ)⁻¹ < y c.id ∧ 1 < ml c.id) := by simpa using hc
    simp [extraerSolucion, List.filterMap_cons, h1]

theorem kgBobina_nonneg {c : Candidata} {mlv : ℚ} (hml : 0 ≤ mlv)
    (hesp : 0 ≤ c.desarrollo.espesor) (hancho : 0 ≤ c.desarrollo.ancho) :
    0 ≤ kgBobina c mlv := by
  unfold kgBobina
  have h1 : (0 : ℚ) ≤ 2.73 := by norm_num
  positivity

theorem resultKgTotales_cons {b : Bobina} {bs : List Bobina} {d : Desarrollo} :
    resultKgTotales (b :: bs) d =
      (if b.desarrollo.id = d.id then b.kg_totales else 0) + resultKgTotales bs d := by
  unfold resultKgTotales
  rw [List.filter_cons]
  by_cases h : b.desarrollo.id = d.id
  · rw [if_pos h, if_pos (by simpa using h)]
    simp
  · rw [if_neg h, if_neg (by simpa using h)]
    simp

/-- Bounding the extracted gross kilograms of one development by the model's
material sum: extraction keeps a subset of the candidates and each gross term
is nonnegative. -/
theorem sum_extraer_le_sum_model {ps : List Pedido} {y ml : ℕ → ℚ} {d : Desarrollo}
    (hesp : 0 ≤ d.espesor) (hancho : 0 ≤ d.ancho) :
    ∀ cands : List Candidata, (∀ c ∈ cands, 0 ≤ ml c.id) →
      (∀ c ∈ cands, c.desarrollo.id = d.id → c.desarrollo = d) →
      resultKgTotales (extraerSolucion ps cands y ml) d ≤
        ((candidatasDe cands d).map (fun c => kgBobina c (ml c.id))).sum := by
  intro cands
  induction cands with
  | nil =>
    intro _ _
    simp [extraerSolucion, resultKgTotales, candidatasDe]
  | cons c t ih =>
    intro hml hdes
    have hml_t : ∀ c' ∈ t, 0 ≤ ml c'.id := fun c' hc' => hml c' (List.mem_cons_of_mem c hc')
    have hdes_t : ∀ c' ∈ t, c'.desarrollo.id = d.id → c'.desarrollo = d :=
      fun c' hc' => hdes c' (List.mem_cons_of_mem c hc')
    have htail := ih hml_t hdes_t
    rw [extraer_cons]
    have hcands : candidatasDe (c :: t) d =
        (if c.desarrollo.id = d.id then [c] else []) ++ candidatasDe t d := by
      unfold candidatasDe
      rw [List.filter_cons]
      by_cases h : c.desarrollo.id = d.id
      · rw [if_pos (by simpa using h), if_pos h]
        simp
      · rw [if_neg (by simpa using h), if_neg h]
        simp
    rw [hcands, List.map_append, List.sum_append]
    by_cases hact : 1 / 2 < y c.id ∧ 1 < ml c.id
    · rw [if_pos hact]
      by_cases hid : c.desarrollo.id = d.id
      · rw [if_pos hid]
        have : resultKgTotales
            (⟨c.desarrollo, extraerCortes ps c (ml c.id), ml c.id,
              ml c.id * 2.73 * c.desarrollo.espesor * (c.desarrollo.ancho / 1000),
              c.desperdicio⟩ :: extraerSolucion ps t y ml) d =
            ml c.id * 2.73 * c.desarrollo.espesor * (c.desarrollo.ancho / 1000) +
              resultKgTotales (extraerSolucion ps t y ml) d := by
          rw [resultKgTotales_cons]
          simp [hid]
        rw [List.singleton_append, this]
        have hkg : ml c.id * 2.73 * c.desarrollo.espesor * (c.desarrollo.ancho / 1000) =
            kgBobina c (ml c.id) := by
          unfold kgBobina
          ring
        rw [hkg]
        simp only [List.map_cons, List.map_nil, List.sum_cons, List.sum_nil, add_zero]
        linarith
      · rw [if_neg hid]
        have : resultKgTotales
            (⟨c.desarrollo, extraerCortes ps c (ml c.id), ml c.id,
              ml c.id * 2.73 * c.desarrollo.espesor * (c.desarrollo.ancho / 1000),
              c.desperdicio⟩ :: extraerSolucion ps t y ml) d =
            0 + resultKgTotales (extraerSolucion ps t y ml) d := by
          rw [resultKgTotales_cons]
          simp [hid]
        rw [List.singleton_append, this]
        simpa using htail
    · rw [if_neg hact, List.nil_append]
      by_cases hid : c.desarrollo.id = d.id
      · rw [if_pos hid]
        have hkgpos : 0 ≤ kgBobina c (ml c.id) := by
          have := hdes c (List.mem_cons_self c t) hid
          exact kgBobina_nonneg (hml c (List.mem_cons_self c t)) (by rw [this]; exact hesp)
            (by rw [this]; exact hancho)
        simp only [List.map_cons, List.map_nil, List.sum_cons, List.sum_nil, add_zero]
        linarith
      · rw [if_neg hid]
        simpa using htail

/-- C3.  For every stock roll, the gross kilograms of all extracted coils cut
from it stay within its available kilograms: the model posts the material
budget as a hard constraint for every stock roll with candidates, and a stock
roll without candidates yields no coils at all. -/
theorem conservacion_material {P : Params} {ds : List Desarrollo} {ps : List Pedido}
    {cands : List Candidata} {y ml : ℕ → ℚ}
    (hc : cands = generarBobinasCandidatas P ds ps)
    (hids : (ds.map (fun d => d.id)).Nodup)
    (hnn : ∀ d ∈ ds, 0 ≤ d.espesor ∧ 0 ≤ d.ancho ∧ 0 ≤ d.kg_disponibles)
    (hf : Factible P ds ps cands y ml) :
    ∀ d ∈ ds, resultKgTotales (extraerSolucion ps cands y ml) d ≤ d.kg_disponibles := by
  intro d hd
  have hdes : ∀ c ∈ cands, c.desarrollo.id = d.id → c.desarrollo = d := by
    intro c hcm hid
    obtain ⟨d', hd', hdd', _, _⟩ := mem_generarBobinasCandidatas (hc ▸ hcm)
    rw [hdd'] at hid ⊢
    exact List.inj_on_of_nodup_map hids hd' hd hid
  have hml : ∀ c ∈ cands, 0 ≤ ml c.id := fun c hcm => (hf.2.1 c hcm).1
  have hstep := @sum_extraer_le_sum_model ps y ml d
    (hnn d hd).1 (hnn d hd).2.1 cands hml hdes
  by_cases hne : candidatasDe cands d = []
  · rw [hne] at hstep
    simp only [List.map_nil, List.sum_nil] at hstep
    exact hstep.trans (hnn d hd).2.2
  · exact hstep.trans (hf.2.2.2.2.2.2.2.1 d hd hne)

theorem conservacion_material_witness :
    [candW] = generarBobinasCandidatas paramsW [desW] [pedidoW] ∧
    ([desW].map (fun d => d.id)).Nodup ∧
    (∀ d ∈ [desW], (0 : ℚ) ≤ d.espesor ∧ 0 ≤ d.ancho ∧ 0 ≤ d.kg_disponibles) ∧
    Factible paramsW [desW] [pedidoW] [candW] yW mlW ∧
    resultKgTotales (extraerSolucion [pedidoW] [candW] yW mlW) desW ≤ desW.kg_disponibles :=
  have h1 : [candW] = generarBobinasCandidatas paramsW [desW] [pedidoW] := eval_candidatasW.symm
  have h2 : ([desW].map (fun d => d.id)).Nodup := by simp
  have h3 : ∀ d ∈ [desW], (0 : ℚ) ≤ d.espesor ∧ 0 ≤ d.ancho ∧ 0 ≤ d.kg_disponibles := by
    intro d hd
    rcases List.mem_singleton.mp hd with rfl
    norm_num [desW]
  ⟨h1, h2, h3, eval_factibleW,
    conservacion_material h1 h2 h3 eval_factibleW desW (List.mem_singleton.mpr rfl)⟩

theorem find_id_nodup {ps : List Pedido} (h : (ps.map (fun q => q.id)).Nodup) {p : Pedido}
    (hp : p ∈ ps) : ps.find? (fun q => decide (q.id = p.id)) = some p := by
  induction ps with
  | nil => simp at hp
  | cons q t ih =>
    rcases List.mem_cons.mp hp with rfl | hpt
    · rw [List.find?_cons_of_pos]
      simp
    · have hne : ¬(q.id = p.id) := by
        intro he
        rw [List.map_cons, List.nodup_cons] at h
        exact h.1 (he ▸ List.mem_map.mpr ⟨p, hpt, rfl⟩)
      rw [List.find?_cons_of_neg _ (by simpa using hne)]
      exact ih (by rw [List.map_cons, List.nodup_cons] at h; exact h.2) hpt

theorem selSum_nonneg {sel : Seleccion} (hw : ∀ pn ∈ sel, 0 ≤ pn.1.ancho) :
    0 ≤ selSum sel := by
  induction sel with
  | nil => simp [selSum]
  | cons pn t ih =>
    have h1 : (0 : ℚ) ≤ (pn.2 : ℚ) * pn.1.ancho :=
      mul_nonneg (by positivity) (hw pn (List.mem_cons_self pn t))
    have h2 := ih (fun q hq => hw q (List.mem_cons_of_mem pn hq))
    unfold selSum at h2 ⊢
    rw [List.map_cons, List.sum_cons]
    linarith

theorem selSum_pos {sel : Seleccion} (hne : sel ≠ []) (hcount : ∀ pn ∈ sel, 1 ≤ pn.2)
    (hw : ∀ pn ∈ sel, 0 < pn.1.ancho) : 0 < selSum sel := by
  cases sel with
  | nil => exact absurd rfl hne
  | cons pn t =>
    have h1 : (0 : ℚ) < (pn.2 : ℚ) * pn.1.ancho := by
      have hc := hcount pn (List.mem_cons_self pn t)
      have hwp := hw pn (List.mem_cons_self pn t)
      have : (1 : ℚ) ≤ (pn.2 : ℚ) := by exact_mod_cast hc
      nlinarith
    have h2 : 0 ≤ selSum t :=
      selSum_nonneg (fun q hq => le_of_lt (hw q (List.mem_cons_of_mem pn hq)))
    unfold selSum at h2 ⊢
    rw [List.map_cons, List.sum_cons]
    linarith

/-- Structure of a pipeline candidate's dict under distinct order ids: it is
literally the list of `(order id, count)` pairs of its selection, with
pairwise distinct keys. -/
theorem candidata_cortes {P : Params} {ds : List Desarrollo} {ps : List Pedido} {c : Candidata}
    (hips : (ps.map (fun q => q.id)).Nodup) (h : c ∈ generarBobinasCandidatas P ds ps) :
    ∃ sel : Seleccion,
      c.configuracion.cortes = sel.map (fun pn => (pn.1.id, pn.2)) ∧
      (sel.map (fun pn => pn.1.id)).Nodup ∧
      (∀ pn ∈ sel, pn.1 ∈ ps) ∧ sel ≠ [] ∧ (∀ pn ∈ sel, 1 ≤ pn.2) ∧
      c.configuracion.ancho_usado = selSum sel := by
  obtain ⟨d, _, sel, _, hcfg, _, hsub, hne, hpos, _, _⟩ := candidata_seleccion h
  have hsub' : (sel.map Prod.fst).Sublist ps :=
    hsub.trans (pedidosCompatibles_sublist d ps)
  have hkeys : (sel.map (fun pn => pn.1.id)).Nodup := by
    have h1 : sel.map (fun pn => pn.1.id) = (sel.map Prod.fst).map (fun q => q.id) := by
      rw [List.map_map]
      rfl
    rw [h1]
    exact (hsub'.map (fun q => q.id)).nodup hips
  refine ⟨sel, ?_, hkeys, ?_, hne, hpos, ?_⟩
  · rw [hcfg]
    show dictOfList (sel.map (fun pn => (pn.1.id, pn.2))) = _
    apply dictOfList_eq_self
    rw [List.map_map]
    exact hkeys
  · intro pn hpn
    exact hsub'.subset (List.mem_map.mpr ⟨pn, hpn, rfl⟩)
  · rw [hcfg]
    rfl

/-- On a candidate whose dict is the literal selection list, the extractor's
cut list is the pointwise image of the selection. -/
theorem extraerCortes_eq_map {ps : List Pedido} {c : Candidata} {mlv : ℚ} {sel : Seleccion}
    (hips : (ps.map (fun q => q.id)).Nodup)
    (hcortes : c.configuracion.cortes = sel.map (fun pn => (pn.1.id, pn.2)))
    (hmem : ∀ pn ∈ sel, pn.1 ∈ ps) :
    extraerCortes ps c mlv = sel.map (fun pn =>
      ⟨pn.1.id, pn.2, pn.1.ancho,
        (mlv * 2.73 * c.desarrollo.espesor * (c.configuracion.ancho_usado / 1000)) *
          (((pn.2 : ℚ) * pn.1.ancho) / c.configuracion.ancho_usado)⟩) := by
  have key : ∀ (K U : ℚ) (sel' : Seleccion), (∀ pn ∈ sel', pn.1 ∈ ps) →
      List.filterMap (fun kn : String × ℕ =>
        (ps.find? (fun p => decide (p.id = kn.1))).map (fun p =>
          (⟨kn.1, kn.2, p.ancho, K * (((kn.2 : ℚ) * p.ancho) / U)⟩ : Corte)))
        (sel'.map (fun pn => (pn.1.id, pn.2))) =
      sel'.map (fun pn => ⟨pn.1.id, pn.2, pn.1.ancho, K * (((pn.2 : ℚ) * pn.1.ancho) / U)⟩) := by
    intro K U sel' hmem'
    induction sel' with
    | nil => rfl
    | cons pn t ih =>
      rw [List.map_cons, List.filterMap_cons]
      have hfind : ps.find? (fun q => decide (q.id = pn.1.id)) = some pn.1 :=
        find_id_nodup hips (hmem' pn (List.mem_cons_self pn t))
      simp only [hfind, Option.map_some']
      rw [List.map_cons]
      exact congrArg _ (ih (fun q hq => hmem' q (List.mem_cons_of_mem pn hq)))
  unfold extraerCortes
  rw [hcortes]
  exact key _ _ sel hmem

theorem kgAsignado_of_not_contiene {c : Candidata} {p : Pedido} {mlv : ℚ}
    (h : ¬contiene c p) : kgAsignado c p mlv = 0 := by
  unfold contiene at h
  unfold kgAsignado
  cases hl : c.configuracion.cortes.lookup p.id with
  | none => rfl
  | some n => rw [hl] at h; simp at h

theorem kgAsignado_zero_ml {c : Candidata} {p : Pedido} : kgAsignado c p 0 = 0 := by
  unfold kgAsignado
  cases hl : c.configuracion.cortes.lookup p.id with
  | none => rfl
  | some n => simp

theorem kgAsignadosPedido_cons {c : Candidata} {t : List Candidata} {p : Pedido} {ml : ℕ → ℚ} :
    kgAsignadosPedido (c :: t) p ml = kgAsignado c p (ml c.id) + kgAsignadosPedido t p ml := by
  unfold kgAsignadosPedido
  rw [List.filter_cons]
  by_cases h : contiene c p
  · rw [if_pos (by simpa using h), List.map_cons, List.sum_cons]
  · rw [if_neg (by simpa using h), kgAsignado_of_not_contiene h, zero_add]

theorem resultKg_cons {b : Bobina} {bs : List Bobina} {pid : String} :
    resultKg (b :: bs) pid =
      ((b.cortes.filter (fun co => decide (co.pedido_id = pid))).map
        (fun co => co.kg_asignados)).sum + resultKg bs pid := by
  unfold resultKg
  rw [List.flatMap_cons, List.filter_append, List.map_append, List.sum_append]

/-- On an extracted coil of a structured candidate, the allocated kilograms
carrying one order's id sum to the model's `_calcular_kg_asignado` value. -/
theorem bobina_sum_filtered {ps : List Pedido} (hips : (ps.map (fun q => q.id)).Nodup)
    {p : Pedido} (hp : p ∈ ps) {c : Candidata} {mlv : ℚ} {sel : Seleccion}
    (hcortes : c.configuracion.cortes = sel.map (fun pn => (pn.1.id, pn.2)))
    (hkeys : (sel.map (fun pn => pn.1.id)).Nodup)
    (hmem : ∀ pn ∈ sel, pn.1 ∈ ps)
    (hU : c.configuracion.ancho_usado ≠ 0) :
    (((extraerCortes ps c mlv).filter (fun co => decide (co.pedido_id = p.id))).map
      (fun co => co.kg_asignados)).sum = kgAsignado c p mlv := by
  rw [extraerCortes_eq_map hips hcortes hmem]
  have key : ∀ (sel' : Seleccion), (sel'.map (fun pn => pn.1.id)).Nodup →
      (∀ pn ∈ sel', pn.1 ∈ ps) →
      ((((sel'.map (fun pn => (⟨pn.1.id, pn.2, pn.1.ancho,
          (mlv * 2.73 * c.desarrollo.espesor * (c.configuracion.ancho_usado / 1000)) *
            (((pn.2 : ℚ) * pn.1.ancho) / c.configuracion.ancho_usado)⟩ : Corte)))).filter
        (fun co => decide (co.pedido_id = p.id))).map (fun co => co.kg_asignados)).sum =
      match (sel'.map (fun pn => (pn.1.id, pn.2))).lookup p.id with
      | none => 0
      | some n => (mlv * 2.73 * c.desarrollo.espesor * (c.configuracion.ancho_usado / 1000)) *
          (((n : ℚ) * p.ancho) / c.configuracion.ancho_usado) := by
    intro sel' hk hm
    induction sel' with
    | nil => simp [List.lookup]
    | cons pn t ih =>
      rw [List.map_cons, List.map_cons, List.filter_cons]
      by_cases hid : pn.1.id = p.id
      · have hpn : pn.1 = p :=
          List.inj_on_of_nodup_map hips (hm pn (List.mem_cons_self pn t)) hp hid
        have htail : (t.map (fun pn => (⟨pn.1.id, pn.2, pn.1.ancho,
            (mlv * 2.73 * c.desarrollo.espesor * (c.configuracion.ancho_usado / 1000)) *
              (((pn.2 : ℚ) * pn.1.ancho) / c.configuracion.ancho_usado)⟩ : Corte))).filter
            (fun co => decide (co.pedido_id = p.id)) = [] := by
          rw [List.filter_eq_nil_iff]
          intro co hco
          obtain ⟨q, hq, rfl⟩ := List.mem_map.mp hco
          simp only [decide_eq_true_eq]
          intro he
          rw [List.map_cons, List.nodup_cons] at hk
          exact hk.1 ((hid.trans he.symm) ▸ List.mem_map.mpr ⟨q, hq, rfl⟩)
        have hbeq : (p.id == pn.1.id) = true := by simp [hid]
        rw [if_pos (by simp [hid]), List.map_cons, List.sum_cons, htail]
        simp only [List.lookup, hbeq, List.map_nil, List.sum_nil, add_zero, hpn]
        simp
      · have hbeq : (p.id == pn.1.id) = false := by
          simp only [beq_eq_false_iff_ne, ne_eq]
          exact fun h => hid h.symm
        rw [if_neg (by simp [hid])]
        simp only [List.lookup, hbeq]
        rw [List.map_cons, List.nodup_cons] at hk
        exact ih hk.2 (fun q hq => hm q (List.mem_cons_of_mem pn hq))
  rw [key sel hkeys hmem]
  unfold kgAsignado
  rw [hcortes]
  cases hl : (sel.map (fun pn => (pn.1.id, pn.2))).lookup p.id with
  | none => rfl
  | some n =>
    show (mlv * 2.73 * c.desarrollo.espesor * (c.configuracion.ancho_usado / 1000)) *
        (((n : ℚ) * p.ancho) / c.configuracion.ancho_usado) =
      mlv * (2.73 * c.desarrollo.espesor * (((n : ℚ) * p.ancho) / 1000))
    field_simp
    ring

/-- Model/extraction agreement: when every selected candidate clears the
extractor's `ml > 1` noise filter, the kilograms an order receives in the
extracted solution are exactly the model's coverage sum. -/
theorem resultKg_eq_aux {ps : List Pedido} {y ml : ℕ → ℚ}
    (hips : (ps.map (fun q => q.id)).Nodup) {p : Pedido} (hp : p ∈ ps) :
    ∀ cands : List Candidata,
      (∀ c ∈ cands, ∃ sel : Seleccion,
        c.configuracion.cortes = sel.map (fun pn => (pn.1.id, pn.2)) ∧
        (sel.map (fun pn => pn.1.id)).Nodup ∧ (∀ pn ∈ sel, pn.1 ∈ ps) ∧
        c.configuracion.ancho_usado ≠ 0) →
      (∀ c ∈ cands, ¬(1 / 2 < y c.id ∧ 1 < ml c.id) → ml c.id = 0) →
      resultKg (extraerSolucion ps cands y ml) p.id = kgAsignadosPedido cands p ml := by
  intro cands
  induction cands with
  | nil =>
    intro _ _
    simp [extraerSolucion, resultKg, kgAsignadosPedido]
  | cons c t ih =>
    intro hfacts hml0
    have hfacts_t : ∀ c' ∈ t, ∃ sel : Seleccion,
        c'.configuracion.cortes = sel.map (fun pn => (pn.1.id, pn.2)) ∧
        (sel.map (fun pn => pn.1.id)).Nodup ∧ (∀ pn ∈ sel, pn.1 ∈ ps) ∧
        c'.configuracion.ancho_usado ≠ 0 :=
      fun c' hc' => hfacts c' (List.mem_cons_of_mem c hc')
    have hml0_t : ∀ c' ∈ t, ¬(1 / 2 < y c'.id ∧ 1 < ml c'.id) → ml c'.id = 0 :=
      fun c' hc' => hml0 c' (List.mem_cons_of_mem c hc')
    rw [extraer_cons, kgAsignadosPedido_cons]
    by_cases hcond : 1 / 2 < y c.id ∧ 1 < ml c.id
    · rw [if_pos hcond, List.singleton_append, resultKg_cons]
      obtain ⟨sel, h1, h2, h3, hU⟩ := hfacts c (List.mem_cons_self c t)
      have hbsum := @bobina_sum_filtered ps hips p hp c (ml c.id) sel h1 h2 h3 hU
      rw [ih hfacts_t hml0_t]
      show (((extraerCortes ps c (ml c.id)).filter (fun co => decide (co.pedido_id = p.id))).map
        (fun co => co.kg_asignados)).sum + kgAsignadosPedido t p ml = _
      rw [hbsum]
    · rw [if_neg hcond, List.nil_append, ih hfacts_t hml0_t,
        hml0 c (List.mem_cons_self c t) hcond, kgAsignado_zero_ml, zero_add]

/-- C1 (amended).  For every order, the model's coverage window is a hard
constraint, and the allocation reported in a returned result equals the model
allocation — hence lies in the window — provided every selected coil exceeds
the extractor's `ml > 1` noise floor (the extractor silently drops selected
coils with `ml ≤ 1`, together with the kilograms the model attributed
through them), order ids are pairwise distinct, and order widths are
positive. -/
theorem cobertura_ventana {P : Params} {ds : List Desarrollo} {ps : List Pedido}
    {cands : List Candidata} {y ml : ℕ → ℚ}
    (hc : cands = generarBobinasCandidatas P ds ps)
    (hips : (ps.map (fun q => q.id)).Nodup)
    (hpos : ∀ q ∈ ps, 0 < q.ancho)
    (hact : ∀ c ∈ cands, 1 / 2 < y c.id → 1 < ml c.id)
    (hf : Factible P ds ps cands y ml) :
    ∀ p ∈ ps,
      p.kg_solicitados * P.margen_cobertura ≤
        resultKg (extraerSolucion ps cands y ml) p.id ∧
      resultKg (extraerSolucion ps cands y ml) p.id ≤
        p.kg_solicitados * P.margen_exceso := by
  intro p hp
  have hfacts : ∀ c ∈ cands, ∃ sel : Seleccion,
      c.configuracion.cortes = sel.map (fun pn => (pn.1.id, pn.2)) ∧
      (sel.map (fun pn => pn.1.id)).Nodup ∧ (∀ pn ∈ sel, pn.1 ∈ ps) ∧
      c.configuracion.ancho_usado ≠ 0 := by
    intro c hcm
    obtain ⟨sel, h1, h2, h3, hne, hcnt, husado⟩ := candidata_cortes hips (hc ▸ hcm)
    refine ⟨sel, h1, h2, h3, ?_⟩
    rw [husado]
    exact ne_of_gt (selSum_pos hne hcnt (fun pn hpn => hpos pn.1 (h3 pn hpn)))
  have hml0 : ∀ c ∈ cands, ¬(1 / 2 < y c.id ∧ 1 < ml c.id) → ml c.id = 0 := by
    intro c hcm hno
    rcases hf.1 c hcm with h0 | h1
    · have ha := hf.2.2.2.2.2.1 c hcm
      rw [h0, mul_zero] at ha
      have hb := (hf.2.1 c hcm).1
      linarith
    · exact absurd ⟨by rw [h1]; norm_num, hact c hcm (by rw [h1]; norm_num)⟩ hno
  have heq := resultKg_eq_aux hips hp cands hfacts hml0
  rw [heq]
  exact ⟨hf.2.2.1 p hp, hf.2.2.2.1 p hp⟩

theorem cobertura_ventana_witness :
    [candW] = generarBobinasCandidatas paramsW [desW] [pedidoW] ∧
    ([pedidoW].map (fun q => q.id)).Nodup ∧
    (∀ q ∈ [pedidoW], (0 : ℚ) < q.ancho) ∧
    (∀ c ∈ [candW], 1 / 2 < yW c.id → 1 < mlW c.id) ∧
    Factible paramsW [desW] [pedidoW] [candW] yW mlW ∧
    (pedidoW.kg_solicitados * paramsW.margen_cobertura ≤
      resultKg (extraerSolucion [pedidoW] [candW] yW mlW) pedidoW.id ∧
    resultKg (extraerSolucion [pedidoW] [candW] yW mlW) pedidoW.id ≤
      pedidoW.kg_solicitados * paramsW.margen_exceso) :=
  have h1 : [candW] = generarBobinasCandidatas paramsW [desW] [pedidoW] := eval_candidatasW.symm
  have h2 : ([pedidoW].map (fun q => q.id)).Nodup := by simp
  have h3 : ∀ q ∈ [pedidoW], (0 : ℚ) < q.ancho := by
    intro q hq
    rcases List.mem_singleton.mp hq with rfl
    norm_num [pedidoW]
  have h4 : ∀ c ∈ [candW], 1 / 2 < yW c.id → 1 < mlW c.id := by
    intro c _ _
    norm_num [mlW]
  ⟨h1, h2, h3, h4, eval_factibleW,
    cobertura_ventana h1 h2 h3 h4 eval_factibleW pedidoW (List.mem_singleton.mpr rfl)⟩

theorem eval_candidatasC :
    generarBobinasCandidatas paramsC [desC0, desC1] [pedidoC] = candsC := by
  have hcomp0 : pedidosCompatibles desC0 [pedidoC] = [pedidoC] := by
    norm_num [pedidosCompatibles, desC0, pedidoC]
  have hcomp1 : pedidosCompatibles desC1 [pedidoC] = [pedidoC] := by
    norm_num [pedidosCompatibles, desC1, pedidoC]
  have hgen0 : generarConfiguracionesCorte paramsC desC0 [pedidoC] =
      [⟨[("P", 2)], 1000⟩] := by
    norm_num [generarConfiguracionesCorte, emitConfigs, selsBranch1, selsOf, combinations,
      countTuples, condBranch1, condBranchMulti, selSum, mkConfiguracion, dictOfList, dictInsert,
      capsOf, paramsC, desC0, pedidoC, List.range']
  have hgen1 : generarConfiguracionesCorte paramsC desC1 [pedidoC] =
      [⟨[("P", 2)], 1000⟩] := by
    norm_num [generarConfiguracionesCorte, emitConfigs, selsBranch1, selsOf, combinations,
      countTuples, condBranch1, condBranchMulti, selSum, mkConfiguracion, dictOfList, dictInsert,
      capsOf, paramsC, desC1, pedidoC, List.range']
  unfold generarBobinasCandidatas
  rw [show [desC0, desC1].flatMap (fun d =>
      (generarConfiguracionesCorte paramsC d (pedidosCompatibles d [pedidoC])).map
        (fun cfg => (d, cfg))) =
      [(desC0, ⟨[("P", 2)], 1000⟩), (desC1, ⟨[("P", 2)], 1000⟩)] by
    rw [List.flatMap_cons, List.flatMap_cons, hcomp0, hcomp1, hgen0, hgen1]
    simp]
  norm_num [List.enum, List.enumFrom, candsC, desC0, desC1]

theorem eval_extraerC : extraerSolucion [pedidoC] candsC yC mlC = [bobinaC] := by
  have hP : List.find? (fun p => decide (p.id = "P")) [pedidoC] = some pedidoC := rfl
  simp only [pedidoC] at hP
  norm_num [extraerSolucion, extraerCortes, candsC, desC0, desC1, yC, mlC, bobinaC,
    List.filterMap, hP, pedidoC]

theorem eval_factibleC : Factible paramsC [desC0, desC1] [pedidoC] candsC yC mlC := by
  unfold Factible
  refine ⟨?_, ?_, ?_, ?_, ?_, ?_, ?_, ?_, ?_, ?_⟩
  · intro c hc
    right
    rfl
  · intro c hc
    rcases List.mem_cons.mp hc with rfl | hc
    · norm_num [mlC]
    · rcases List.mem_singleton.mp hc with rfl
      norm_num [mlC]
  · intro p hp
    rcases List.mem_singleton.mp hp with rfl
    norm_num [kgAsignadosPedido, kgAsignado, contiene, candsC, desC0, desC1, pedidoC, paramsC,
      mlC, List.lookup, List.filter]
  · intro p hp
    rcases List.mem_singleton.mp hp with rfl
    norm_num [kgAsignadosPedido, kgAsignado, contiene, candsC, desC0, desC1, pedidoC, paramsC,
      mlC, List.lookup, List.filter]
  · intro c hc
    rcases List.mem_cons.mp hc with rfl | hc
    · norm_num [kgBobina, desC0, paramsC, mlC]
    · rcases List.mem_singleton.mp hc with rfl
      norm_num [kgBobina, desC1, paramsC, mlC]
  · intro c hc
    rcases List.mem_cons.mp hc with rfl | hc
    · norm_num [yC, mlC]
    · rcases List.mem_singleton.mp hc with rfl
      norm_num [yC, mlC]
  · intro c hc
    rcases List.mem_cons.mp hc with rfl | hc
    · norm_num [kgBobina, desC0, paramsC, mlC, yC]
    · rcases List.mem_singleton.mp hc with rfl
      norm_num [kgBobina, desC1, paramsC, mlC, yC]
  · intro d hd hne
    rcases List.mem_cons.mp hd with rfl | hd
    · norm_num [candidatasDe, kgBobina, candsC, desC0, desC1, mlC, List.filter]
    · rcases List.mem_singleton.mp hd with rfl
      norm_num [candidatasDe, kgBobina, candsC, desC0, desC1, mlC, List.filter]
  · intro p hp hml
    rcases List.mem_singleton.mp hp with rfl
    norm_num [pedidoC] at hml
  · intro h
    norm_num [paramsC] at h

/-- C1 counterexample: a feasible model assignment on a concrete instance
(two identical stock rolls, one order, all hard constraints satisfied) whose
extracted, non-empty result allocates the order 3276 kg while the coverage
floor is 3705 kg — the extractor dropped a selected coil with `ml = 0.5`,
losing the 546 kg the model had attributed through it. -/
theorem cobertura_violada :
    Factible paramsC [desC0, desC1] [pedidoC] candsC yC mlC ∧
    candsC = generarBobinasCandidatas paramsC [desC0, desC1] [pedidoC] ∧
    extraerSolucion [pedidoC] candsC yC mlC ≠ [] ∧
    resultKg (extraerSolucion [pedidoC] candsC yC mlC) pedidoC.id <
      pedidoC.kg_solicitados * paramsC.margen_cobertura := by
  refine ⟨eval_factibleC, eval_candidatasC.symm, ?_, ?_⟩
  · rw [eval_extraerC]
    simp
  · rw [eval_extraerC]
    norm_num [resultKg, bobinaC, pedidoC, paramsC, List.filter]

theorem combinations_nodup {l : List α} (hl : l.Nodup) (k : ℕ) :
    (combinations k l).Nodup := by
  induction l generalizing k with
  | nil =>
    cases k with
    | zero => simp [combinations]
    | succ k => simp [combinations]
  | cons x xs ih =>
    cases k with
    | zero => simp [combinations]
    | succ k =>
      rw [List.nodup_cons] at hl
      show (((combinations k xs).map (fun c => x :: c)) ++ combinations (k + 1) xs).Nodup
      rw [List.nodup_append]
      refine ⟨(ih hl.2 k).map_on ?_, ih hl.2 (k + 1), ?_⟩
      · intro c1 _ c2 _ he
        exact (List.cons.injEq x c1 x c2 ▸ he).2
      · intro c hc1 hc2
        obtain ⟨c', _, rfl⟩ := List.mem_map.mp hc1
        have := (combinations_sublist hc2).subset (List.mem_cons_self x c')
        exact hl.1 this

theorem countTuples_nodup (caps : List ℕ) : (countTuples caps).Nodup := by
  induction caps with
  | nil => simp [countTuples]
  | cons c cs ih =>
    show ((List.range' 1 c).flatMap (fun n => (countTuples cs).map (fun t => n :: t))).Nodup
    rw [List.nodup_flatMap]
    refine ⟨?_, ?_⟩
    · intro n _
      exact ih.map_on (fun t1 _ t2 _ he => (List.cons.injEq n t1 n t2 ▸ he).2)
    · refine (List.nodup_range' 1 c).imp_of_mem ?_
      intro a b _ _ hab t ht1 ht2
      obtain ⟨t1, _, rfl⟩ := List.mem_map.mp ht1
      obtain ⟨t2, _, he⟩ := List.mem_map.mp ht2
      exact hab ((List.cons.injEq _ _ _ _ ▸ he.symm).1)

theorem selsOf_nodup {ps : List Pedido} (hps : ps.Nodup) {k : ℕ} {caps : List ℕ}
    (hcaps : caps.length = k) : (selsOf k caps ps).Nodup := by
  unfold selsOf
  rw [List.nodup_flatMap]
  refine ⟨?_, ?_⟩
  · intro combo hcombo
    refine (countTuples_nodup caps).map_on ?_
    intro ns1 h1 ns2 h2 he
    have hl1 : ns1.length = combo.length := by
      rw [countTuples_length h1, hcaps, combinations_length hcombo]
    have hl2 : ns2.length = combo.length := by
      rw [countTuples_length h2, hcaps, combinations_length hcombo]
    have := congrArg (List.map Prod.snd) he
    rwa [List.map_snd_zip combo ns1 (le_of_eq hl1),
      List.map_snd_zip combo ns2 (le_of_eq hl2)] at this
  · refine (combinations_nodup hps k).imp_of_mem ?_
    intro c1 c2 hm1 hm2 hne sel hs1 hs2
    obtain ⟨ns1, hns1, rfl⟩ := List.mem_map.mp hs1
    obtain ⟨ns2, hns2, he⟩ := List.mem_map.mp hs2
    have hl1 : c1.length ≤ ns1.length := by
      rw [countTuples_length hns1, hcaps, combinations_length hm1]
    have hl2 : c2.length ≤ ns2.length := by
      rw [countTuples_length hns2, hcaps, combinations_length hm2]
    have h1 := List.map_fst_zip c1 ns1 hl1
    have h2 := List.map_fst_zip c2 ns2 hl2
    have h3 := congrArg (List.map Prod.fst) he
    rw [h1, h2] at h3
    exact hne h3.symm

theorem selsBranch1_nodup {P : Params} {d : Desarrollo} {ps : List Pedido}
    (hps : ps.Nodup) : (selsBranch1 P d ps).Nodup := by
  unfold selsBranch1
  rw [List.nodup_flatMap]
  refine ⟨?_, ?_⟩
  · intro p _
    refine (List.nodup_range' _ _).map_on ?_
    intro n1 _ n2 _ he
    have : ((p, n1) : Pedido × ℕ) = (p, n2) := by
      have := List.cons.injEq (p, n1) ([] : Seleccion) (p, n2) [] ▸ he
      exact this.1
    exact congrArg Prod.snd this
  · refine hps.imp_of_mem ?_
    intro p1 p2 _ _ hne sel hs1 hs2
    obtain ⟨n1, _, rfl⟩ := List.mem_map.mp hs1
    obtain ⟨n2, _, he⟩ := List.mem_map.mp hs2
    have : ((p1, n1) : Pedido × ℕ) = (p2, n2) :=
      (List.cons.injEq (p1, n1) [] (p2, n2) [] ▸ he.symm).1
    exact hne (congrArg Prod.fst this)

/-- Two sublists of a duplicate-free list with the same members are equal. -/
theorem sublist_eq_of_same_mem {l l1 l2 : List α} (hl : l.Nodup)
    (s1 : l1.Sublist l) (s2 : l2.Sublist l) (hm : ∀ a, a ∈ l1 ↔ a ∈ l2) : l1 = l2 := by
  induction l generalizing l1 l2 with
  | nil =>
    rw [List.sublist_nil.mp s1, List.sublist_nil.mp s2]
  | cons x xs ih =>
    rw [List.nodup_cons] at hl
    rcases List.sublist_cons_iff.mp s1 with h1 | ⟨r1, rfl, hr1⟩
    · rcases List.sublist_cons_iff.mp s2 with h2 | ⟨r2, rfl, hr2⟩
      · exact ih hl.2 h1 h2 hm
      · exfalso
        have hx : x ∈ l1 := (hm x).mpr (List.mem_cons_self x r2)
        exact hl.1 (h1.subset hx)
    · rcases List.sublist_cons_iff.mp s2 with h2 | ⟨r2, rfl, hr2⟩
      · exfalso
        have hx : x ∈ l2 := (hm x).mp (List.mem_cons_self x r1)
        exact hl.1 (h2.subset hx)
      · have hm' : ∀ a, a ∈ r1 ↔ a ∈ r2 := by
          intro a
          constructor
          · intro ha
            rcases List.mem_cons.mp ((hm a).mp (List.mem_cons_of_mem x ha)) with rfl | h
            · exact absurd (hr1.subset ha) hl.1
            · exact h
          · intro ha
            rcases List.mem_cons.mp ((hm a).mpr (List.mem_cons_of_mem x ha)) with rfl | h
            · exact absurd (hr2.subset ha) hl.1
            · exact h
        rw [ih hl.2 hr1 hr2 hm']

theorem lookup_eq_none_of_not_mem {l : List (String × ℕ)} {k : String}
    (h : k ∉ l.map Prod.fst) : l.lookup k = none := by
  cases hl : l.lookup k with
  | none => rfl
  | some n =>
    exact absurd (lookup_isSome_iff.mp (by rw [hl]; rfl)) h

/-- Two association lists with duplicate-free keys, the same key sequence and
the same lookup function are equal. -/
theorem assoc_eq_of_lookup_eq {c1 c2 : List (String × ℕ)}
    (hn : (c1.map Prod.fst).Nodup) (hf : c1.map Prod.fst = c2.map Prod.fst)
    (hl : ∀ k, c1.lookup k = c2.lookup k) : c1 = c2 := by
  induction c1 generalizing c2 with
  | nil =>
    rw [List.map_nil] at hf
    rw [(List.map_eq_nil_iff).mp hf.symm]
  | cons e t1 ih =>
    cases c2 with
    | nil => rw [List.map_cons, List.map_nil] at hf; exact absurd hf (by simp)
    | cons e' t2 =>
      rw [List.map_cons, List.map_cons] at hf
      have hkey : e.1 = e'.1 := (List.cons.injEq _ _ _ _ ▸ hf).1
      have htf : t1.map Prod.fst = t2.map Prod.fst := (List.cons.injEq _ _ _ _ ▸ hf).2
      rw [List.map_cons, List.nodup_cons] at hn
      have hval : e.2 = e'.2 := by
        have := hl e.1
        have hb1 : (e.1 == e.1) = true := by simp
        have hb2 : (e.1 == e'.1) = true := by simp [hkey]
        simp only [List.lookup, hb1, hb2] at this
        exact Option.some_inj.mp this
      have hee : e = e' := Prod.ext hkey hval
      have htl : ∀ k, t1.lookup k = t2.lookup k := by
        intro k
        by_cases hk : k = e.1
        · subst hk
          rw [lookup_eq_none_of_not_mem hn.1, lookup_eq_none_of_not_mem (htf ▸ hn.1)]
        · have hb : (k == e.1) = false := by simpa using hk
          have hb' : (k == e'.1) = false := by rw [← hkey]; exact hb
          have := hl k
          simp only [List.lookup, hb, hb'] at this
          exact this
      rw [hee, ih hn.2 htf htl]

/-- Lists of pairs agreeing componentwise are equal. -/
theorem pair_list_ext {l1 l2 : List (α × β)} (hf : l1.map Prod.fst = l2.map Prod.fst)
    (hs : l1.map Prod.snd = l2.map Prod.snd) : l1 = l2 := by
  induction l1 generalizing l2 with
  | nil =>
    rw [List.map_nil] at hf
    rw [(List.map_eq_nil_iff).mp hf.symm]
  | cons e t1 ih =>
    cases l2 with
    | nil => rw [List.map_cons, List.map_nil] at hf; exact absurd hf (by simp)
    | cons e' t2 =>
      rw [List.map_cons, List.map_cons] at hf hs
      have h1 := List.cons.injEq _ _ _ _ ▸ hf
      have h2 := List.cons.injEq _ _ _ _ ▸ hs
      rw [Prod.ext h1.1 h2.1, ih h1.2 h2.2]

theorem keysS_nodup {ps : List Pedido} {sel : Seleccion}
    (hips : (ps.map (fun q => q.id)).Nodup) (hs : (sel.map Prod.fst).Sublist ps) :
    (sel.map (fun pn => pn.1.id)).Nodup := by
  have h1 : sel.map (fun pn => pn.1.id) = (sel.map Prod.fst).map (fun q => q.id) := by
    rw [List.map_map]
    rfl
  rw [h1]
  exact (hs.map (fun q => q.id)).nodup hips

theorem mk_cortes_eq {ps : List Pedido} {sel : Seleccion}
    (hips : (ps.map (fun q => q.id)).Nodup) (hs : (sel.map Prod.fst).Sublist ps) :
    (mkConfiguracion sel).cortes = sel.map (fun pn => (pn.1.id, pn.2)) := by
  show dictOfList _ = _
  apply dictOfList_eq_self
  rw [List.map_map]
  exact keysS_nodup hips hs

theorem nodup_same_mem_length {l1 l2 : List α} [DecidableEq α] (h1 : l1.Nodup)
    (h2 : l2.Nodup) (hm : ∀ a, a ∈ l1 ↔ a ∈ l2) : l1.length = l2.length := by
  rw [← List.toFinset_card_of_nodup h1, ← List.toFinset_card_of_nodup h2]
  congr 1
  ext a
  rw [List.mem_toFinset, List.mem_toFinset]
  exact hm a

theorem mapEq_keys_iff {ps : List Pedido} {s t : Seleccion}
    (hips : (ps.map (fun q => q.id)).Nodup)
    (hs : (s.map Prod.fst).Sublist ps) (ht : (t.map Prod.fst).Sublist ps)
    (h : MapEq (mkConfiguracion s) (mkConfiguracion t)) :
    ∀ k, k ∈ s.map (fun pn => pn.1.id) ↔ k ∈ t.map (fun pn => pn.1.id) := by
  intro k
  have hks : k ∈ s.map (fun pn => pn.1.id) ↔
      ((mkConfiguracion s).cortes.lookup k).isSome = true := by
    rw [lookup_isSome_iff, mk_cortes_eq hips hs, List.map_map]
    rfl
  have hkt : k ∈ t.map (fun pn => pn.1.id) ↔
      ((mkConfiguracion t).cortes.lookup k).isSome = true := by
    rw [lookup_isSome_iff, mk_cortes_eq hips ht, List.map_map]
    rfl
  rw [hks, hkt, h k]

/-- Map equality forces equal pattern sizes (under duplicate-free ids). -/
theorem mapEq_length {ps : List Pedido} {s t : Seleccion}
    (hips : (ps.map (fun q => q.id)).Nodup)
    (hs : (s.map Prod.fst).Sublist ps) (ht : (t.map Prod.fst).Sublist ps)
    (h : MapEq (mkConfiguracion s) (mkConfiguracion t)) : s.length = t.length := by
  have := nodup_same_mem_length (keysS_nodup hips hs) (keysS_nodup hips ht)
    (mapEq_keys_iff hips hs ht h)
  rwa [List.length_map, List.length_map] at this

/-- Map equality forces equal selections (under duplicate-free ids). -/
theorem mapEq_sel_eq {ps : List Pedido} {s t : Seleccion}
    (hips : (ps.map (fun q => q.id)).Nodup)
    (hs : (s.map Prod.fst).Sublist ps) (ht : (t.map Prod.fst).Sublist ps)
    (h : MapEq (mkConfiguracion s) (mkConfiguracion t)) : s = t := by
  have hkeys := mapEq_keys_iff hips hs ht h
  have hmem : ∀ a, a ∈ s.map Prod.fst ↔ a ∈ t.map Prod.fst := by
    intro a
    constructor
    · intro ha
      have : a.id ∈ s.map (fun pn => pn.1.id) := by
        obtain ⟨pn, hpn, rfl⟩ := List.mem_map.mp ha
        exact List.mem_map.mpr ⟨pn, hpn, rfl⟩
      have h2 := (hkeys a.id).mp this
      obtain ⟨qn, hqn, hqid⟩ := List.mem_map.mp h2
      have hq_ps : qn.1 ∈ ps := ht.subset (List.mem_map.mpr ⟨qn, hqn, rfl⟩)
      have ha_ps : a ∈ ps := hs.subset ha
      have : qn.1 = a := List.inj_on_of_nodup_map hips hq_ps ha_ps hqid
      rw [← this]
      exact List.mem_map.mpr ⟨qn, hqn, rfl⟩
    · intro ha
      have : a.id ∈ t.map (fun pn => pn.1.id) := by
        obtain ⟨pn, hpn, rfl⟩ := List.mem_map.mp ha
        exact List.mem_map.mpr ⟨pn, hpn, rfl⟩
      have h2 := (hkeys a.id).mpr this
      obtain ⟨qn, hqn, hqid⟩ := List.mem_map.mp h2
      have hq_ps : qn.1 ∈ ps := hs.subset (List.mem_map.mpr ⟨qn, hqn, rfl⟩)
      have ha_ps : a ∈ ps := ht.subset ha
      have : qn.1 = a := List.inj_on_of_nodup_map hips hq_ps ha_ps hqid
      rw [← this]
      exact List.mem_map.mpr ⟨qn, hqn, rfl⟩
  have hfst : s.map Prod.fst = t.map Prod.fst :=
    sublist_eq_of_same_mem (List.Nodup.of_map _ hips) hs ht hmem
  have hcortes : s.map (fun pn => (pn.1.id, pn.2)) = t.map (fun pn => (pn.1.id, pn.2)) := by
    apply assoc_eq_of_lookup_eq
    · rw [List.map_map]
      exact keysS_nodup hips hs
    · rw [List.map_map, List.map_map]
      show s.map (fun pn => pn.1.id) = t.map (fun pn => pn.1.id)
      have e1 : s.map (fun pn => pn.1.id) = (s.map Prod.fst).map (fun q => q.id) := by
        rw [List.map_map]; rfl
      have e2 : t.map (fun pn => pn.1.id) = (t.map Prod.fst).map (fun q => q.id) := by
        rw [List.map_map]; rfl
      rw [e1, e2, hfst]
    · intro k
      have := h k
      rwa [mk_cortes_eq hips hs, mk_cortes_eq hips ht] at this
  have hsnd : s.map Prod.snd = t.map Prod.snd := by
    have := congrArg (List.map Prod.snd) hcortes
    rwa [List.map_map, List.map_map] at this
  exact pair_list_ext hfst hsnd

theorem branchOk_selsBranch1 {P : Params} {d : Desarrollo} {ps : List Pedido}
    (hps : ps.Nodup) : BranchOk ps 1 (selsBranch1 P d ps) := by
  refine ⟨?_, selsBranch1_nodup hps⟩
  intro sel hsel
  obtain ⟨p, hp, n, _, rfl⟩ := mem_selsBranch1 hsel
  exact ⟨rfl, by simpa using List.singleton_sublist.mpr hp⟩

theorem branchOk_selsOf {ps : List Pedido} (hps : ps.Nodup) {k : ℕ} {caps : List ℕ}
    (hcaps : caps.length = k) : BranchOk ps k (selsOf k caps ps) := by
  refine ⟨?_, selsOf_nodup hps hcaps⟩
  intro sel hsel
  obtain ⟨h1, h2, _⟩ := selsOf_shape hcaps hsel
  exact ⟨h2, h1⟩

theorem emitConfigs_pairwise {cond : Seleccion → Prop} [DecidablePred cond]
    {sels : List Seleccion} {R : Configuracion → Configuracion → Prop}
    (h : sels.Pairwise (fun s t => R (mkConfiguracion s) (mkConfiguracion t))) :
    (emitConfigs cond sels).Pairwise R := by
  induction sels with
  | nil => simp [emitConfigs]
  | cons s t ih =>
    have hc := List.pairwise_cons.mp h
    show ((fun sel => if cond sel then [mkConfiguracion sel] else []) s ++
      emitConfigs cond t).Pairwise R
    rw [List.pairwise_append]
    refine ⟨?_, ih hc.2, ?_⟩
    · change (if cond s then [mkConfiguracion s] else []).Pairwise R
      by_cases hcs : cond s
      · rw [if_pos hcs]
        exact List.pairwise_singleton R (mkConfiguracion s)
      · rw [if_neg hcs]
        exact List.Pairwise.nil
    · intro a ha b hb
      replace ha : a ∈ (if cond s then [mkConfiguracion s] else []) := ha
      have has : a = mkConfiguracion s := by
        by_cases hcs : cond s
        · rw [if_pos hcs] at ha
          exact List.mem_singleton.mp ha
        · rw [if_neg hcs] at ha
          exact absurd ha (List.not_mem_nil a)
      obtain ⟨u, hu, _, rfl⟩ := mem_emitConfigs.mp hb
      rw [has]
      exact hc.1 u hu

theorem pairwise_emit_distinct {ps : List Pedido}
    (hips : (ps.map (fun q => q.id)).Nodup) {k : ℕ} {sels : List Seleccion}
    {cond : Seleccion → Prop} [DecidablePred cond] (hok : BranchOk ps k sels) :
    (emitConfigs cond sels).Pairwise (fun f g => ¬MapEq f g) := by
  apply emitConfigs_pairwise
  refine hok.2.imp_of_mem ?_
  intro s t hsm htm hne hmap
  exact hne (mapEq_sel_eq hips (hok.1 s hsm).2 (hok.1 t htm).2 hmap)

theorem cross_emit_distinct {ps : List Pedido}
    (hips : (ps.map (fun q => q.id)).Nodup) {j k : ℕ} (hjk : j ≠ k)
    {selsj selsk : List Seleccion} {condj condk : Seleccion → Prop}
    [DecidablePred condj] [DecidablePred condk]
    (hokj : BranchOk ps j selsj) (hokk : BranchOk ps k selsk) :
    ∀ f ∈ emitConfigs condj selsj, ∀ g ∈ emitConfigs condk selsk, ¬MapEq f g := by
  intro f hf g hg hmap
  obtain ⟨s, hsm, _, rfl⟩ := mem_emitConfigs.mp hf
  obtain ⟨t, htm, _, rfl⟩ := mem_emitConfigs.mp hg
  have := mapEq_length hips (hokj.1 s hsm).2 (hokk.1 t htm).2 hmap
  rw [(hokj.1 s hsm).1, (hokk.1 t htm).1] at this
  exact hjk this

theorem mem_of_mem_iteList {b : Prop} [Decidable b] {E : List γ} {x : γ}
    (h : x ∈ (if b then E else [])) : x ∈ E := by
  by_cases hb : b
  · rwa [if_pos hb] at h
  · rw [if_neg hb] at h
    exact absurd h (List.not_mem_nil x)

/-- Dedup within one stock roll: under duplicate-free order ids, no two
configurations the generator emits carry the same order ↦ count mapping. -/
theorem generar_pairwise_distinct {P : Params} {d : Desarrollo} {ps : List Pedido}
    (hips : (ps.map (fun q => q.id)).Nodup) :
    (generarConfiguracionesCorte P d ps).Pairwise (fun f g => ¬MapEq f g) := by
  have hps : ps.Nodup := List.Nodup.of_map _ hips
  have hok1 := branchOk_selsBranch1 (P := P) (d := d) hps
  have hok2 := @branchOk_selsOf ps hps 2 (capsOf P 2) rfl
  have hok3 := @branchOk_selsOf ps hps 3 (capsOf P 3) rfl
  have hok4 := @branchOk_selsOf ps hps 4 (capsOf P 4) rfl
  have hok5 := @branchOk_selsOf ps hps 5 (capsOf P 5) rfl
  have hok6 := @branchOk_selsOf ps hps 6 (capsOf P 6) rfl
  have hflat : generarConfiguracionesCorte P d ps =
      List.flatten [emitConfigs (condBranch1 P d) (selsBranch1 P d ps),
        emitConfigs (condBranchMulti P d) (selsOf 2 (capsOf P 2) ps),
        emitConfigs (condBranchMulti P d) (selsOf 3 (capsOf P 3) ps),
        (if 4 ≤ P.max_pedidos_por_configuracion then
          emitConfigs (condBranchMulti P d) (selsOf 4 (capsOf P 4) ps) else []),
        (if 5 ≤ P.max_pedidos_por_configuracion then
          emitConfigs (condBranchMulti P d) (selsOf 5 (capsOf P 5) ps) else []),
        emitConfigs (condBranchMulti P d) (selsOf 6 (capsOf P 6) ps)] := by
    show _ ++ _ ++ _ ++ _ ++ _ ++ _ = _
    simp [List.flatten, List.append_assoc]
  rw [hflat, List.pairwise_flatten]
  constructor
  · intro l hl
    simp only [List.mem_cons, List.not_mem_nil, or_false] at hl
    rcases hl with rfl | rfl | rfl | rfl | rfl | rfl
    · exact pairwise_emit_distinct hips hok1
    · exact pairwise_emit_distinct hips hok2
    · exact pairwise_emit_distinct hips hok3
    · by_cases hb : 4 ≤ P.max_pedidos_por_configuracion
      · rw [if_pos hb]
        exact pairwise_emit_distinct hips hok4
      · rw [if_neg hb]
        exact List.Pairwise.nil
    · by_cases hb : 5 ≤ P.max_pedidos_por_configuracion
      · rw [if_pos hb]
        exact pairwise_emit_distinct hips hok5
      · rw [if_neg hb]
        exact List.Pairwise.nil
    · exact pairwise_emit_distinct hips hok6
  · refine List.Pairwise.cons ?_ (List.Pairwise.cons ?_ (List.Pairwise.cons ?_
      (List.Pairwise.cons ?_ (List.Pairwise.cons ?_ (List.pairwise_singleton _ _)))))
    · intro l hl x hx y hy
      simp only [List.mem_cons, List.not_mem_nil, or_false] at hl
      rcases hl with rfl | rfl | rfl | rfl | rfl
      · exact cross_emit_distinct hips (by omega) hok1 hok2 x hx y hy
      · exact cross_emit_distinct hips (by omega) hok1 hok3 x hx y hy
      · exact cross_emit_distinct hips (by omega) hok1 hok4 x hx y (mem_of_mem_iteList hy)
      · exact cross_emit_distinct hips (by omega) hok1 hok5 x hx y (mem_of_mem_iteList hy)
      · exact cross_emit_distinct hips (by omega) hok1 hok6 x hx y hy
    · intro l hl x hx y hy
      simp only [List.mem_cons, List.not_mem_nil, or_false] at hl
      rcases hl with rfl | rfl | rfl | rfl
      · exact cross_emit_distinct hips (by omega) hok2 hok3 x hx y hy
      · exact cross_emit_distinct hips (by omega) hok2 hok4 x hx y (mem_of_mem_iteList hy)
      · exact cross_emit_distinct hips (by omega) hok2 hok5 x hx y (mem_of_mem_iteList hy)
      · exact cross_emit_distinct hips (by omega) hok2 hok6 x hx y hy
    · intro l hl x hx y hy
      simp only [List.mem_cons, List.not_mem_nil, or_false] at hl
      rcases hl with rfl | rfl | rfl
      · exact cross_emit_distinct hips (by omega) hok3 hok4 x hx y (mem_of_mem_iteList hy)
      · exact cross_emit_distinct hips (by omega) hok3 hok5 x hx y (mem_of_mem_iteList hy)
      · exact cross_emit_distinct hips (by omega) hok3 hok6 x hx y hy
    · intro l hl x hx y hy
      simp only [List.mem_cons, List.not_mem_nil, or_false] at hl
      rcases hl with rfl | rfl
      · exact cross_emit_distinct hips (by omega) hok4 hok5 x (mem_of_mem_iteList hx)
          y (mem_of_mem_iteList hy)
      · exact cross_emit_distinct hips (by omega) hok4 hok6 x (mem_of_mem_iteList hx) y hy
    · intro l hl x hx y hy
      simp only [List.mem_cons, List.not_mem_nil, or_false] at hl
      rcases hl with rfl
      exact cross_emit_distinct hips (by omega) hok5 hok6 x (mem_of_mem_iteList hx) y hy

theorem mem_enumFrom_snd {l : List α} : ∀ {n : ℕ} {x : ℕ × α}, x ∈ l.enumFrom n → x.2 ∈ l := by
  induction l with
  | nil => intro n x h; simp [List.enumFrom] at h
  | cons a t ih =>
    intro n x h
    rw [List.enumFrom_cons] at h
    rcases List.mem_cons.mp h with rfl | h
    · exact List.mem_cons_self a t
    · exact List.mem_cons_of_mem a (ih h)

theorem pairwise_enumFrom {l : List α} {R : α → α → Prop} (h : l.Pairwise R) :
    ∀ n : ℕ, (l.enumFrom n).Pairwise (fun a b => R a.2 b.2) := by
  induction l with
  | nil => intro n; simp [List.enumFrom]
  | cons a t ih =>
    intro n
    have hc := List.pairwise_cons.mp h
    rw [List.enumFrom_cons, List.pairwise_cons]
    refine ⟨?_, ih hc.2 (n + 1)⟩
    intro x hx
    exact hc.1 x.2 (mem_enumFrom_snd hx)

/-- C8 (amended).  When all order ids are pairwise distinct (and stock-roll
ids are, as the loader guarantees), no two candidates handed to the model
builder share both the stock roll and the order ↦ count mapping: the
enumeration itself never revisits a pattern, so the absence of an explicit
deduplication pass is harmless for such inputs. -/
theorem dedup_candidatas {P : Params} {ds : List Desarrollo} {ps : List Pedido}
    (hips : (ps.map (fun q => q.id)).Nodup)
    (hds : (ds.map (fun d => d.id)).Nodup) :
    SinDuplicados (generarBobinasCandidatas P ds ps) := by
  unfold SinDuplicados generarBobinasCandidatas
  rw [List.pairwise_map]
  have hL : (ds.flatMap (fun d =>
      (generarConfiguracionesCorte P d (pedidosCompatibles d ps)).map
        (fun cfg => (d, cfg)))).Pairwise
      (fun a b : Desarrollo × Configuracion => a.1.id = b.1.id → ¬MapEq a.2 b.2) := by
    rw [List.pairwise_flatMap]
    constructor
    · intro d _
      rw [List.pairwise_map]
      have hcompat : ((pedidosCompatibles d ps).map (fun q => q.id)).Nodup :=
        ((pedidosCompatibles_sublist d ps).map (fun q => q.id)).nodup hips
      refine (generar_pairwise_distinct (P := P) (d := d) hcompat).imp ?_
      intro cfg1 cfg2 hne _
      exact hne
    · have hpw : ds.Pairwise (fun d1 d2 => d1.id ≠ d2.id) := by
        rw [← List.pairwise_map]
        exact hds
      refine hpw.imp_of_mem ?_
      intro d1 d2 _ _ hne x hx y hy
      obtain ⟨cfg1, _, rfl⟩ := List.mem_map.mp hx
      obtain ⟨cfg2, _, rfl⟩ := List.mem_map.mp hy
      intro hid
      exact absurd hid hne
  show ((ds.flatMap _).enumFrom 0).Pairwise _
  refine (pairwise_enumFrom hL 0).imp ?_
  intro a b h
  exact h

theorem dedup_candidatas_witness :
    ([pedidoW].map (fun q => q.id)).Nodup ∧
    ([desW].map (fun d => d.id)).Nodup ∧
    SinDuplicados (generarBobinasCandidatas paramsW [desW] [pedidoW]) :=
  ⟨by simp, by simp, dedup_candidatas (by simp) (by simp)⟩

theorem eval_candidatas8 :
    generarBobinasCandidatas params8 [des8] [pedido8, pedido8] =
      [⟨1, des8, ⟨[("A", 1)], 100⟩, 0⟩, ⟨2, des8, ⟨[("A", 1)], 100⟩, 0⟩] := by
  have hcomp : pedidosCompatibles des8 [pedido8, pedido8] = [pedido8, pedido8] := by
    norm_num [pedidosCompatibles, des8, pedido8]
  have hgen : generarConfiguracionesCorte params8 des8 [pedido8, pedido8] =
      [⟨[("A", 1)], 100⟩, ⟨[("A", 1)], 100⟩] := by
    norm_num [generarConfiguracionesCorte, emitConfigs, selsBranch1, selsOf, combinations,
      countTuples, condBranch1, condBranchMulti, selSum, mkConfiguracion, dictOfList, dictInsert,
      capsOf, params8, des8, pedido8, List.range']
  unfold generarBobinasCandidatas
  rw [show [des8].flatMap (fun d =>
      (generarConfiguracionesCorte params8 d (pedidosCompatibles d [pedido8, pedido8])).map
        (fun cfg => (d, cfg))) =
      [(des8, ⟨[("A", 1)], 100⟩), (des8, ⟨[("A", 1)], 100⟩)] by
    rw [List.flatMap_cons, hcomp, hgen]
    simp]
  norm_num [List.enum, List.enumFrom, des8]

/-- C8 counterexample: with an input listing the same order id twice, the
generator hands the model two distinct candidates with identical
(stock roll, order ↦ count) mapping — no deduplication pass exists. -/
theorem dedup_violado :
    ¬SinDuplicados (generarBobinasCandidatas params8 [des8] [pedido8, pedido8]) := by
  rw [eval_candidatas8]
  unfold SinDuplicados
  intro h
  have := (List.pairwise_cons.mp h).1 ⟨2, des8, ⟨[("A", 1)], 100⟩, 0⟩
    (List.mem_singleton.mpr rfl)
  exact this rfl (fun k => rfl)

end OptimizadorBobinas
